import Mathlib

set_option maxHeartbeats 1000000

/-
Verification development for the Stalwart Sieve compiler and runtime
(`stalwart-sieve`).  The definitions below are a shallow embedding of:

* `src/compiler/grammar/instruction.rs` — `Compiler::compile` (the statement
  loop with jump backpatching), `CompilerState`'s variable-registration
  helpers and `block_end`;
* `src/compiler/mod.rs` — `Compiler::new` and the error model;
* `src/runtime/actions/action_set.rs` — `Context::set_variable` and
  `Context::add_set_envelope_event`.

Functions of the repository that are not under `src/` (the tokenizer, the
`parse_*` argument parsers, `validate_argument`) are modelled from the
specification; each such definition carries a doc comment starting with
`Modelled from the spec:`.
-/

namespace Stalwart

/-- Sentinel `usize::MAX` used by the compiler for unresolved jump addresses
(`instruction.rs` pushes `Instruction::Jmp(usize::MAX)` etc.). -/
def usizeMax : Nat := 2 ^ 64 - 1

/-- Subset of `grammar::Capability` referenced by the modelled statements. -/
inductive Capability
  | FileInto
  | ForEveryPart
  | Variables
  | Include
  | Ihave
deriving DecidableEq

/-- Subset of `lexer::word::Word` covering the statement keywords handled by
the modelled branches of `Compiler::compile`; `Is` stands in for the keywords
that are not statements and therefore reach the catch-all branch that emits an
`Invalid` instruction. -/
inductive Word
  | If
  | ElsIf
  | Else
  | ForEveryPart
  | Break
  | Return
  | Require
  | Discard
  | Stop
  | Not
  | Is
deriving DecidableEq

/-- Display form of a `Word` (mirrors `impl Display for Word` in
`lexer/word.rs`). -/
def Word.str : Word → String
  | .If => "if"
  | .ElsIf => "elsif"
  | .Else => "else"
  | .ForEveryPart => "foreverypart"
  | .Break => "break"
  | .Return => "return"
  | .Require => "require"
  | .Discard => "discard"
  | .Stop => "stop"
  | .Not => "not"
  | .Is => "is"

/-- Tokens as consumed by `Compiler::compile`.  The tokenizer is not under
`src/`; following the spec's token list, a `Tag(Word::Name)` followed by its
constant string is collapsed into `TagName label`, a whole test expression
into `TestTok id`, and `require`'s string list into `StrList caps`. -/
inductive Tok
  | Identifier (w : Word)
  | CurlyOpen
  | CurlyClose
  | TagName (label : String)
  | TestTok (id : Nat)
  | StrList (caps : List Capability)
  | Semicolon
  | InvalidTok (name : String)
deriving DecidableEq

/-- Display form of a token, used for the `found` field of
`UnexpectedToken` errors. -/
def Tok.str : Tok → String
  | .Identifier w => w.str
  | .CurlyOpen => "\x7b"
  | .CurlyClose => "\x7d"
  | .TagName l => ":name " ++ l
  | .TestTok _ => "test"
  | .StrList _ => "string-list"
  | .Semicolon => ";"
  | .InvalidTok n => n

/-- Token with source position, mirroring `TokenInfo`. -/
structure TokInfo where
  tok : Tok
  line_num : Nat
  line_pos : Nat
deriving DecidableEq

/-- Modelled subset of the `Instruction` enumeration of
`compiler/grammar/instruction.rs` (argument payloads of the action
instructions that do not matter to the claims are omitted). -/
inductive Instruction
  | Require (caps : List Capability)
  | Discard
  | Stop
  | Invalid (name : String) (line_num line_pos : Nat)
  | Test (id : Nat)
  | Jmp (addr : Nat)
  | Jz (addr : Nat)
  | Jnz (addr : Nat)
  | ForEveryPartPush
  | ForEveryPart (jz_pos : Nat)
  | ForEveryPartPop (n : Nat)
  | Clear (match_vars : Nat) (local_vars_idx : Nat) (local_vars_num : Nat)
  | Return
deriving DecidableEq

/-- Subset of `ErrorType` (`compiler/mod.rs`) used by the modelled code
paths. -/
inductive ErrorType
  | ScriptTooLong
  | UnterminatedBlock
  | TooManyNestedBlocks
  | TooManyNestedForEveryParts
  | LabelAlreadyDefined (label : String)
  | LabelUndefined (label : String)
  | BreakOutsideLoop
  | UndeclaredCapability (cap : Capability)
  | UnexpectedToken (expected : String) (found : String)
  | UnexpectedEOF
deriving DecidableEq

/-- `CompileError` of `compiler/mod.rs`. -/
structure CompileError where
  line_num : Nat
  line_pos : Nat
  error_type : ErrorType
deriving DecidableEq

/-- Compiled program: instruction vector plus the two peak variable counts
(`Sieve` as built at the end of `Compiler::compile`). -/
structure Sieve where
  instructions : List Instruction
  num_vars : Nat
  num_match_vars : Nat
deriving DecidableEq

/-- Compiler configuration (`Compiler` struct; the host-function map is
omitted because no modelled code path consults it). -/
structure Compiler where
  max_script_size : Nat
  max_string_size : Nat
  max_variable_name_size : Nat
  max_nested_blocks : Nat
  max_nested_tests : Nat
  max_nested_foreverypart : Nat
  max_match_variables : Nat
  max_local_variables : Nat
  max_header_size : Nat
  max_includes : Nat
  no_capability_check : Bool
deriving DecidableEq

/-- `Compiler::new()` from `compiler/mod.rs` lines 209-224. -/
def Compiler.new : Compiler :=
  { max_script_size := 1024 * 1024
    max_string_size := 4096
    max_variable_name_size := 32
    max_nested_blocks := 15
    max_nested_tests := 15
    max_nested_foreverypart := 3
    max_match_variables := 30
    max_local_variables := 128
    max_header_size := 1024
    max_includes := 6
    no_capability_check := false }

/-- `impl Default for Compiler` delegates to `Compiler::new()`. -/
def Compiler.mkDefault : Compiler := Compiler.new

/-- Compile-time block (`Block` struct of `instruction.rs`).  `vars_local`
models the `AHashMap<String, usize>` as an association list and
`capabilities` the `AHashSet` as a duplicate-free list. -/
structure Block where
  btype : Word
  label : Option String := none
  line_num : Nat := 0
  line_pos : Nat := 0
  last_block_start : Nat := 0
  if_jmps : List Nat := []
  break_jmps : List Nat := []
  match_test_pos : List Nat := []
  match_test_vars : Nat := 0
  vars_local : List (String × Nat) := []
  capabilities : List Capability := []
deriving DecidableEq

/-- `Block::new` (all bookkeeping fields empty). -/
def Block.new (btype : Word) : Block := { btype := btype }

/-- `Block::with_label`. -/
def Block.withLabel (b : Block) (label : String) : Block :=
  { b with label := some label }

/-- `CompilerState` of `instruction.rs`.  `block_stack` is kept with the top
of the Rust `Vec` (the innermost enclosing block) at the head of the list, so
`block_stack.iter().rev()` of the source corresponds to walking this list in
order.  `param_check` is omitted (only consulted by argument parsers that are
not under `src/`). -/
structure CompilerState where
  compiler : Compiler
  instructions : List Instruction := []
  block_stack : List Block := []
  block : Block := Block.new .Not
  last_block_type : Word := .Not
  vars_global : List String := []
  vars_num : Nat := 0
  vars_num_max : Nat := 0
  vars_match_max : Nat := 0
  includes_num : Nat := 0
deriving DecidableEq

/-- Initial compiler state set up at the top of `Compiler::compile`. -/
def initState (c : Compiler) : CompilerState := { compiler := c }

/-- `UnexpectedToken` error as produced by `TokenInfo::expected`. -/
def TokInfo.expectedErr (t : TokInfo) (expected : String) : CompileError :=
  { line_num := t.line_num, line_pos := t.line_pos
    error_type := .UnexpectedToken expected t.tok.str }

/-- Modelled from the spec: error returned when the tokenizer (not under
`src/`) reaches end of input while a token is required; the position carried
by the real error comes from tokenizer state and is modelled as `0, 0`. -/
def eofError : CompileError :=
  { line_num := 0, line_pos := 0, error_type := .UnexpectedEOF }

/-- Modelled from the spec: `validate_argument` (not under `src/`) fails with
`UndeclaredCapability` unless capability checking is disabled or the
capability is in the current block's set or that of an enclosing block. -/
def validateArgument (s : CompilerState) (cap : Capability) (ln lp : Nat) :
    Except CompileError Unit :=
  if s.compiler.no_capability_check || s.block.capabilities.contains cap
      || s.block_stack.any (fun b => b.capabilities.contains cap) then
    .ok ()
  else
    .error { line_num := ln, line_pos := lp
             error_type := .UndeclaredCapability cap }

/-- Modelled from the spec: `parse_require` (not under `src/`) parses a
string list, pushes `Instruction::Require` and unions the parsed capabilities
into the current block's capability set. -/
def stepRequire (s : CompilerState) (caps : List Capability) : CompilerState :=
  { s with
    instructions := s.instructions ++ [.Require caps]
    block := { s.block with
               capabilities := s.block.capabilities ++
                 caps.filter (fun c => !s.block.capabilities.contains c) } }

/-- Patch helper: if position `p` holds a `Jmp`, replace its target by
`target` (the `if let Instruction::Jmp(jmp_pos) = &mut instructions[pos]`
pattern of the close-block code). -/
def patchJmp (l : List Instruction) (p target : Nat) : List Instruction :=
  match l[p]? with
  | some (.Jmp _) => l.set p (.Jmp target)
  | _ => l

/-- Patch every position of `poss` that holds a `Jmp` to `target` (the
`for pos in …` loops over `break_jmps` / `if_jmps`). -/
def patchJmps (l : List Instruction) (poss : List Nat) (target : Nat) :
    List Instruction :=
  poss.foldl (fun acc p => patchJmp acc p target) l

/-- Patch helper for the controlling `Jz` of an `if`/`elsif` block. -/
def patchJz (l : List Instruction) (p target : Nat) : List Instruction :=
  match l[p]? with
  | some (.Jz _) => l.set p (.Jz target)
  | _ => l

/-- Patch helper for the `jz_pos` field of a `ForEveryPart` instruction. -/
def patchFep (l : List Instruction) (p target : Nat) : List Instruction :=
  match l[p]? with
  | some (.ForEveryPart _) => l.set p (.ForEveryPart target)
  | _ => l

/-- Open a new block: record the position where `{` was expected, require the
`{` token, enforce `max_nested_blocks`, save `last_block_start` on the current
block and push it (lines 561-576 of `instruction.rs`). -/
def openBlock (s : CompilerState) (nb : Block) (co : TokInfo) :
    Except CompileError CompilerState :=
  if co.tok = .CurlyOpen then
    if s.block_stack.length < s.compiler.max_nested_blocks then
      .ok { s with
            block_stack :=
              { s.block with last_block_start := s.instructions.length - 1 } ::
                s.block_stack
            block := { nb with line_num := co.line_num, line_pos := co.line_pos } }
    else
      .error { line_num := s.block.line_num, line_pos := s.block.line_pos
               error_type := .TooManyNestedBlocks }
  else
    .error (co.expectedErr "\x7b")

/-- `CompilerState::block_end` (lines 832-851): emit a `Clear` when the block
interned local variables or accumulated match variables. -/
def blockEnd (s : CompilerState) : CompilerState :=
  if 0 < s.block.vars_local.length then
    { s with
      vars_num_max := if s.vars_num_max < s.vars_num then s.vars_num else s.vars_num_max
      vars_num := s.vars_num - s.block.vars_local.length
      instructions := s.instructions ++
        [.Clear s.block.match_test_vars (s.vars_num - s.block.vars_local.length)
          s.block.vars_local.length] }
  else if s.block.match_test_vars ≠ 0 then
    { s with instructions := s.instructions ++ [.Clear s.block.match_test_vars 0 0] }
  else s

/-- Peek used on `}`: is the next token `elsif` or `else`? -/
def nextIsElsIfElse : List TokInfo → Bool
  | ⟨.Identifier .ElsIf, _, _⟩ :: _ => true
  | ⟨.Identifier .Else, _, _⟩ :: _ => true
  | _ => false

/-- Close the current block on `}` (the `Token::CurlyClose` arm, lines
581-654): run `block_end`, pop the parent block `prev`, patch the jumps
according to the closing block's type and restore `prev` as current. -/
def closeBlock (s : CompilerState) (prev : Block) (stk : List Block)
    (nextIsBlock : Bool) : CompilerState :=
  match (blockEnd s).block.btype with
  | .ForEveryPart =>
      { blockEnd s with
        instructions :=
          patchJmps
            (patchFep
              ((blockEnd s).instructions ++ [Instruction.Jmp prev.last_block_start])
              prev.last_block_start
              ((blockEnd s).instructions ++ [Instruction.Jmp prev.last_block_start]).length)
            (blockEnd s).block.break_jmps
            ((blockEnd s).instructions ++ [Instruction.Jmp prev.last_block_start]).length
        block := prev, block_stack := stk, last_block_type := .Not }
  | .If | .ElsIf =>
      if nextIsBlock then
        { blockEnd s with
          instructions :=
            patchJz ((blockEnd s).instructions ++ [Instruction.Jmp usizeMax])
              prev.last_block_start
              ((blockEnd s).instructions ++ [Instruction.Jmp usizeMax]).length
          block :=
            { prev with if_jmps := prev.if_jmps ++ [(blockEnd s).instructions.length] }
          block_stack := stk
          last_block_type := (blockEnd s).block.btype }
      else
        { blockEnd s with
          instructions :=
            patchJmps
              (patchJz (blockEnd s).instructions prev.last_block_start
                (blockEnd s).instructions.length)
              prev.if_jmps (blockEnd s).instructions.length
          block := { prev with if_jmps := [] }
          block_stack := stk
          last_block_type := .Not }
  | .Else =>
      { blockEnd s with
        instructions :=
          patchJmps (blockEnd s).instructions prev.if_jmps
            (blockEnd s).instructions.length
        block := { prev with if_jmps := [] }
        block_stack := stk
        last_block_type := .Else }
  | _ => { blockEnd s with block := prev, block_stack := stk }

/-- Scan for a labelled `break` target (lines 289-304): walk the open blocks
innermost first, counting `foreverypart` blocks; at the first one carrying
`label`, record `jmpPos` in its `break_jmps` and return the count together
with the updated chain. -/
def scanBreakLabel (label : String) (jmpPos : Nat) :
    List Block → Nat → Option (Nat × List Block)
  | [], _ => none
  | b :: rest, pops =>
    if b.btype = .ForEveryPart then
      if b.label = some label then
        some (pops + 1, { b with break_jmps := b.break_jmps ++ [jmpPos] } :: rest)
      else
        match scanBreakLabel label jmpPos rest (pops + 1) with
        | some (n, rest') => some (n, b :: rest')
        | none => none
    else
      match scanBreakLabel label jmpPos rest pops with
      | some (n, rest') => some (n, b :: rest')
      | none => none

/-- Record an unlabelled `break` in the innermost enclosing `foreverypart`
block of the stack (lines 319-325). -/
def addBreakJmp (jmpPos : Nat) : List Block → Option (List Block)
  | [] => none
  | b :: rest =>
    if b.btype = .ForEveryPart then
      some ({ b with break_jmps := b.break_jmps ++ [jmpPos] } :: rest)
    else
      (addBreakJmp jmpPos rest).map (fun r => b :: r)

/-- Unlabelled `break` (lines 312-330): push `ForEveryPartPop(1)`, record the
upcoming `Jmp`'s position in the innermost `foreverypart` block (checking the
current block first), then push `Jmp(usize::MAX)`; fails with
`BreakOutsideLoop` when no `foreverypart` block is open. -/
def stepBreakPlain (s : CompilerState) (ln lp : Nat) :
    Except CompileError CompilerState :=
  let instrs := s.instructions ++ [.ForEveryPartPop 1]
  let jmpPos := instrs.length
  if s.block.btype = .ForEveryPart then
    .ok { s with
          instructions := instrs ++ [.Jmp usizeMax]
          block := { s.block with break_jmps := s.block.break_jmps ++ [jmpPos] } }
  else
    match addBreakJmp jmpPos s.block_stack with
    | some stk' =>
        .ok { s with instructions := instrs ++ [.Jmp usizeMax], block_stack := stk' }
    | none =>
        .error { line_num := ln, line_pos := lp, error_type := .BreakOutsideLoop }

/-- Labelled `break` (lines 281-311): scan the open blocks for the
`foreverypart` block carrying `label`; on success push
`ForEveryPartPop(count)` and `Jmp(usize::MAX)` and record the jump position
in that block's `break_jmps`, otherwise fail with `LabelUndefined`.  The
`invalid(…)` error constructor lives in the tokenizer (not under `src/`) and
is modelled from the spec as the `LabelUndefined` error. -/
def stepBreakLabelled (s : CompilerState) (label : String) (tl tp : Nat) :
    Except CompileError CompilerState :=
  match scanBreakLabel label (s.instructions.length + 1) (s.block :: s.block_stack) 0 with
  | some (n, b' :: stk') =>
      .ok { s with
            instructions := s.instructions ++ [.ForEveryPartPop n, .Jmp usizeMax]
            block := b', block_stack := stk' }
  | some (_, []) => .error eofError
  | none =>
      .error { line_num := tl, line_pos := tp, error_type := .LabelUndefined label }

/-- Implementation-side count used by `return` (lines 490-499): number of
`foreverypart` blocks among the open blocks. -/
def fepPops (blocks : List Block) : Nat :=
  (blocks.filter (fun b => b.btype = Word.ForEveryPart)).length

/-- `return` statement (lines 483-508): emit `ForEveryPartPop(n)` only when
at least one `foreverypart` block is open, then `Return`. -/
def stepReturn (s : CompilerState) : CompilerState :=
  let n := fepPops (s.block :: s.block_stack)
  { s with
    instructions := s.instructions ++
      (if 0 < n then [Instruction.ForEveryPartPop n] else []) ++ [.Return] }

/-- Nesting guard of the `foreverypart` arm (lines 236-246): the error fires
when the block stack already holds `max_nested_foreverypart` blocks of that
type (the current block is not counted).  The `invalid(…)` error constructor
is modelled from the spec as `TooManyNestedForEveryParts`. -/
def fepNestingCheck (s : CompilerState) (ln lp : Nat) :
    Except CompileError Unit :=
  if (s.block_stack.filter (fun b => b.btype = Word.ForEveryPart)).length =
      s.compiler.max_nested_foreverypart then
    .error { line_num := ln, line_pos := lp
             error_type := .TooManyNestedForEveryParts }
  else
    .ok ()

/-- Duplicate-label guard of the `foreverypart` arm (lines 253-260): only the
blocks already on the stack are scanned.  Modelled from the spec as the
`LabelAlreadyDefined` error. -/
def fepLabelCheck (s : CompilerState) (label : String) (tl tp : Nat) :
    Except CompileError Unit :=
  if s.block_stack.any (fun b => b.label = some label) then
    .error { line_num := tl, line_pos := tp
             error_type := .LabelAlreadyDefined label }
  else
    .ok ()

/-- Main statement loop of `Compiler::compile` (lines 173-726).  Each token
pattern mirrors one arm of the Rust `match`; `parse_test` (not under `src/`)
is modelled from the spec as consuming one test token and emitting
`Test id; Jz usize::MAX` so that the block open records the `Jz` as the
controlling instruction.  On end of input, return the `Sieve` when the block
stack is empty, otherwise `UnterminatedBlock` at the unclosed block. -/
def compileLoop (s : CompilerState) : List TokInfo → Except CompileError Sieve
  | [] =>
    if s.block_stack.isEmpty then
      .ok { instructions := s.instructions
            num_vars := max s.vars_num_max s.vars_num
            num_match_vars := s.vars_match_max }
    else
      .error { line_num := s.block.line_num, line_pos := s.block.line_pos
               error_type := .UnterminatedBlock }
  | ⟨.Identifier .Require, _, _⟩ :: ⟨.StrList caps, _, _⟩ :: semi :: rest =>
      if semi.tok = .Semicolon then compileLoop (stepRequire s caps) rest
      else .error (semi.expectedErr ";")
  | ⟨.Identifier .Require, _, _⟩ :: ⟨.StrList _, _, _⟩ :: [] => .error eofError
  | ⟨.Identifier .Require, _, _⟩ :: other :: _ =>
      .error (other.expectedErr "string list")
  | ⟨.Identifier .Require, _, _⟩ :: [] => .error eofError
  | ⟨.Identifier .If, _, _⟩ :: ⟨.TestTok tid, _, _⟩ :: co :: rest =>
      let s1 := { s with
                  instructions := s.instructions ++ [.Test tid, .Jz usizeMax]
                  block := { s.block with if_jmps := [] } }
      match openBlock s1 (Block.new .If) co with
      | .ok s2 => compileLoop s2 rest
      | .error e => .error e
  | ⟨.Identifier .If, _, _⟩ :: ⟨.TestTok _, _, _⟩ :: [] => .error eofError
  | ⟨.Identifier .If, _, _⟩ :: other :: _ => .error (other.expectedErr "test")
  | ⟨.Identifier .If, _, _⟩ :: [] => .error eofError
  | ⟨.Identifier .ElsIf, ln, lp⟩ :: ⟨.TestTok tid, _, _⟩ :: co :: rest =>
      if s.last_block_type = .If ∨ s.last_block_type = .ElsIf then
        let s1 := { s with instructions := s.instructions ++ [.Test tid, .Jz usizeMax] }
        match openBlock s1 (Block.new .ElsIf) co with
        | .ok s2 => compileLoop s2 rest
        | .error e => .error e
      else
        .error (TokInfo.expectedErr ⟨.Identifier .ElsIf, ln, lp⟩ "if before elsif")
  | ⟨.Identifier .ElsIf, ln, lp⟩ :: ⟨.TestTok _, _, _⟩ :: [] =>
      if s.last_block_type = .If ∨ s.last_block_type = .ElsIf then .error eofError
      else .error (TokInfo.expectedErr ⟨.Identifier .ElsIf, ln, lp⟩ "if before elsif")
  | ⟨.Identifier .ElsIf, ln, lp⟩ :: other :: _ =>
      if s.last_block_type = .If ∨ s.last_block_type = .ElsIf then
        .error (other.expectedErr "test")
      else .error (TokInfo.expectedErr ⟨.Identifier .ElsIf, ln, lp⟩ "if before elsif")
  | ⟨.Identifier .ElsIf, ln, lp⟩ :: [] =>
      if s.last_block_type = .If ∨ s.last_block_type = .ElsIf then .error eofError
      else .error (TokInfo.expectedErr ⟨.Identifier .ElsIf, ln, lp⟩ "if before elsif")
  | ⟨.Identifier .Else, ln, lp⟩ :: co :: rest =>
      if s.last_block_type = .If ∨ s.last_block_type = .ElsIf then
        match openBlock s (Block.new .Else) co with
        | .ok s2 => compileLoop s2 rest
        | .error e => .error e
      else
        .error (TokInfo.expectedErr ⟨.Identifier .Else, ln, lp⟩ "if or elsif before else")
  | ⟨.Identifier .Else, ln, lp⟩ :: [] =>
      if s.last_block_type = .If ∨ s.last_block_type = .ElsIf then .error eofError
      else .error (TokInfo.expectedErr ⟨.Identifier .Else, ln, lp⟩ "if or elsif before else")
  | ⟨.Identifier .Discard, _, _⟩ :: semi :: rest =>
      if semi.tok = .Semicolon then
        compileLoop { s with instructions := s.instructions ++ [.Discard] } rest
      else .error (semi.expectedErr ";")
  | ⟨.Identifier .Discard, _, _⟩ :: [] => .error eofError
  | ⟨.Identifier .Stop, _, _⟩ :: semi :: rest =>
      if semi.tok = .Semicolon then
        compileLoop { s with instructions := s.instructions ++ [.Stop] } rest
      else .error (semi.expectedErr ";")
  | ⟨.Identifier .Stop, _, _⟩ :: [] => .error eofError
  | ⟨.Identifier .ForEveryPart, ln, lp⟩ :: ⟨.TagName lab, tl, tp⟩ :: co :: rest =>
      (match validateArgument s .ForEveryPart ln lp with
       | .error e => .error e
       | .ok _ =>
         match fepNestingCheck s ln lp with
         | .error e => .error e
         | .ok _ =>
           match fepLabelCheck s lab tl tp with
           | .error e => .error e
           | .ok _ =>
             let s1 := { s with
                         instructions := s.instructions ++
                           [.ForEveryPartPush, .ForEveryPart usizeMax] }
             match openBlock s1 ((Block.new .ForEveryPart).withLabel lab) co with
             | .ok s2 => compileLoop s2 rest
             | .error e => .error e)
  | ⟨.Identifier .ForEveryPart, ln, lp⟩ :: ⟨.TagName lab, tl, tp⟩ :: [] =>
      (match validateArgument s .ForEveryPart ln lp with
       | .error e => .error e
       | .ok _ =>
         match fepNestingCheck s ln lp with
         | .error e => .error e
         | .ok _ =>
           match fepLabelCheck s lab tl tp with
           | .error e => .error e
           | .ok _ => .error eofError)
  | ⟨.Identifier .ForEveryPart, ln, lp⟩ :: co :: rest =>
      (match validateArgument s .ForEveryPart ln lp with
       | .error e => .error e
       | .ok _ =>
         match fepNestingCheck s ln lp with
         | .error e => .error e
         | .ok _ =>
           let s1 := { s with
                       instructions := s.instructions ++
                         [.ForEveryPartPush, .ForEveryPart usizeMax] }
           match openBlock s1 (Block.new .ForEveryPart) co with
           | .ok s2 => compileLoop s2 rest
           | .error e => .error e)
  | ⟨.Identifier .ForEveryPart, ln, lp⟩ :: [] =>
      (match validateArgument s .ForEveryPart ln lp with
       | .error e => .error e
       | .ok _ =>
         match fepNestingCheck s ln lp with
         | .error e => .error e
         | .ok _ => .error eofError)
  | ⟨.Identifier .Break, ln, lp⟩ :: ⟨.TagName lab, tl, tp⟩ :: semi :: rest =>
      (match validateArgument s .ForEveryPart ln lp with
       | .error e => .error e
       | .ok _ =>
         match stepBreakLabelled s lab tl tp with
         | .ok s' =>
             if semi.tok = .Semicolon then compileLoop s' rest
             else .error (semi.expectedErr ";")
         | .error e => .error e)
  | ⟨.Identifier .Break, ln, lp⟩ :: ⟨.TagName lab, tl, tp⟩ :: [] =>
      (match validateArgument s .ForEveryPart ln lp with
       | .error e => .error e
       | .ok _ =>
         match stepBreakLabelled s lab tl tp with
         | .ok _ => .error eofError
         | .error e => .error e)
  | ⟨.Identifier .Break, ln, lp⟩ :: semi :: rest =>
      (match validateArgument s .ForEveryPart ln lp with
       | .error e => .error e
       | .ok _ =>
         match stepBreakPlain s ln lp with
         | .ok s' =>
             if semi.tok = .Semicolon then compileLoop s' rest
             else .error (semi.expectedErr ";")
         | .error e => .error e)
  | ⟨.Identifier .Break, ln, lp⟩ :: [] =>
      (match validateArgument s .ForEveryPart ln lp with
       | .error e => .error e
       | .ok _ =>
         match stepBreakPlain s ln lp with
         | .ok _ => .error eofError
         | .error e => .error e)
  | ⟨.Identifier .Return, ln, lp⟩ :: semi :: rest =>
      (match validateArgument s .Include ln lp with
       | .error e => .error e
       | .ok _ =>
         if semi.tok = .Semicolon then compileLoop (stepReturn s) rest
         else .error (semi.expectedErr ";"))
  | ⟨.Identifier .Return, ln, lp⟩ :: [] =>
      (match validateArgument s .Include ln lp with
       | .error e => .error e
       | .ok _ => .error eofError)
  | ⟨.Identifier w, ln, lp⟩ :: rest =>
      compileLoop
        { s with instructions := s.instructions ++ [.Invalid w.str ln lp] } rest
  | ⟨.InvalidTok name, ln, lp⟩ :: rest =>
      compileLoop
        { s with instructions := s.instructions ++ [.Invalid name ln lp] } rest
  | ⟨.CurlyClose, ln, lp⟩ :: rest =>
      match s.block_stack with
      | prev :: stk =>
          compileLoop (closeBlock s prev stk (nextIsElsIfElse rest)) rest
      | [] => .error (TokInfo.expectedErr ⟨.CurlyClose, ln, lp⟩ "instruction")
  | t :: _ => .error (t.expectedErr "instruction")

/-- `Compiler::compile` entry point; the byte-level script size check and the
tokenizer live outside the modelled statement loop, so compilation starts
from the initial state over the token stream. -/
def compile (c : Compiler) (ts : List TokInfo) : Except CompileError Sieve :=
  compileLoop (initState c) ts

/-! Variable registration helpers of `CompilerState` (lines 729-776). -/

/-- `char::to_ascii_lowercase` on one character. -/
def asciiLowerChar (c : Char) : Char :=
  if 'A' ≤ c ∧ c ≤ 'Z' then Char.ofNat (c.toNat + 32) else c

/-- `str::to_ascii_lowercase`. -/
def asciiLower (s : String) : String :=
  String.mk (s.data.map asciiLowerChar)

/-- Lookup in the association-list model of `AHashMap<String, usize>`. -/
def mapGet (m : List (String × Nat)) (k : String) : Option Nat :=
  match m.find? (fun e => e.1 = k) with
  | some e => some e.2
  | none => none

/-- Insert into the association-list model of `AHashMap<String, usize>`:
replace the value of an existing key, otherwise append the new entry. -/
def mapInsert : List (String × Nat) → String → Nat → List (String × Nat)
  | [], k, v => [(k, v)]
  | e :: rest, k, v =>
    if e.1 = k then (k, v) :: rest else e :: mapInsert rest k v

/-- Walk the enclosing blocks innermost first for a lowercased name
(`get_local_var`'s loop over `block_stack.iter().rev()`). -/
def findLocalInStack (stack : List Block) (n : String) : Option Nat :=
  match stack with
  | [] => none
  | b :: rest =>
    match mapGet b.vars_local n with
    | some id => some id
    | none => findLocalInStack rest n

/-- `CompilerState::get_local_var`: lowercase the name, then search the
current block and the enclosing blocks innermost first. -/
def getLocalVar (s : CompilerState) (name : String) : Option Nat :=
  let n := asciiLower name
  match mapGet s.block.vars_local n with
  | some id => some id
  | none => findLocalInStack s.block_stack n

/-- `CompilerState::is_var_local`. -/
def isVarLocal (s : CompilerState) (name : String) : Bool :=
  (getLocalVar s name).isSome

/-- `CompilerState::is_var_global`: membership of the lowercased name in the
global set. -/
def isVarGlobal (s : CompilerState) (name : String) : Bool :=
  s.vars_global.contains (asciiLower name)

/-- `CompilerState::register_local_var`: reuse the index found by
`get_local_var`, otherwise intern the name — as passed, without lowercasing —
into the current block's map under the next free index `vars_num`. -/
def registerLocalVar (s : CompilerState) (name : String) : Nat × CompilerState :=
  match getLocalVar s name with
  | some varId => (varId, s)
  | none =>
    let varId := s.vars_num
    (varId,
     { s with
       block := { s.block with vars_local := mapInsert s.block.vars_local name varId }
       vars_num := s.vars_num + 1 })

/-- `CompilerState::register_global_var`: insert the lowercased name into the
global set (set-insert on the list model). -/
def registerGlobalVar (s : CompilerState) (name : String) : CompilerState :=
  let n := asciiLower name
  if s.vars_global.contains n then s
  else { s with vars_global := n :: s.vars_global }

/-! Runtime model for `runtime/actions/action_set.rs`. -/

/-- Modelled from the spec: runtime `Variable` values (the enum lives in
`runtime/mod.rs`, not under `src/`); `set_variable` only consults the string
form and its UTF-8 byte length, so a value is modelled as its character
sequence. -/
abbrev SVariable : Type := List Char

/-- UTF-8 byte length of a character sequence (`String::len` on the Rust
side; each `char` contributes `len_utf8`). -/
def charsBytes (l : List Char) : Nat := (l.map Char.utf8Size).sum

/-- Envelope parts (subset of the `Envelope` enumeration). -/
inductive SEnvelope
  | From
  | To
  | Auth
  | Orcpt
deriving DecidableEq

/-- Variable references (`VariableType` in `compiler/mod.rs`; the
`HeaderVariable` and `MessagePart` payloads are irrelevant to `set_variable`
and abstracted to numbers). -/
inductive SVariableType
  | Local (varId : Nat)
  | Match (num : Nat)
  | Global (name : String)
  | Environment (name : String)
  | Envelope (env : SEnvelope)
  | Header (h : Nat)
  | Part (p : Nat)
deriving DecidableEq

/-- Runtime events (subset of `Event`; only `SetEnvelope` is produced by the
modelled code, `Keep` stands in for previously queued events). -/
inductive SEvent
  | SetEnvelope (envelope : SEnvelope) (value : SVariable)
  | Keep
deriving DecidableEq

/-- Association-list model of the `AHashMap` holding global variables. -/
def mapInsertVar : List (String × SVariable) → String → SVariable →
    List (String × SVariable)
  | [], k, v => [(k, v)]
  | e :: rest, k, v =>
    if e.1 = k then (k, v) :: rest else e :: mapInsertVar rest k v

/-- Runtime context (subset of `Context` touched by `set_variable`;
`max_variable_size` is the `runtime.max_variable_size` limit). -/
structure SContext where
  max_variable_size : Nat
  vars_local : List SVariable
  vars_global : List (String × SVariable)
  envelope : List (SEnvelope × SVariable)
  queued_events : List SEvent
deriving DecidableEq

/-- Truncation loop of `set_variable` (lines 48-56): push characters while
the next character still fits within `max_variable_size` bytes, stop at the
first one that does not. -/
def setVarLoop (maxSize : Nat) (newVar : List Char) : List Char → List Char
  | [] => newVar
  | ch :: chars =>
    if ch.utf8Size + charsBytes newVar ≤ maxSize then
      setVarLoop maxSize (newVar ++ [ch]) chars
    else newVar

/-- Value stored by `set_variable` (lines 47-57): unchanged when it fits in
`max_variable_size` bytes, otherwise rebuilt by the truncation loop. -/
def setVariableValue (maxSize : Nat) (v : List Char) : List Char :=
  if maxSize < charsBytes v then setVarLoop maxSize [] v else v

/-- Replace the value of the first envelope entry of the given kind
(`did_find` loop of `add_set_envelope_event`, lines 79-86); `none` when no
entry of that kind exists. -/
def setFirstEnvelope : List (SEnvelope × SVariable) → SEnvelope → SVariable →
    Option (List (SEnvelope × SVariable))
  | [], _, _ => none
  | (name, v) :: rest, env, value =>
    if name = env then some ((name, value) :: rest)
    else (setFirstEnvelope rest env value).map (fun r => (name, v) :: r)

/-- `Context::add_set_envelope_event` (lines 78-92): update the first
envelope entry of the kind in place or append a new entry, then replace the
whole queued-event buffer by the single `SetEnvelope` event. -/
def addSetEnvelopeEvent (ctx : SContext) (envelope : SEnvelope)
    (value : SVariable) : SContext :=
  let envs :=
    match setFirstEnvelope ctx.envelope envelope value with
    | some e => e
    | none => ctx.envelope ++ [(envelope, value)]
  { ctx with envelope := envs
             queued_events := [SEvent.SetEnvelope envelope value] }

/-- `Context::set_variable` (lines 46-76): truncate the value to
`max_variable_size`, then write it to the target; `Match`, `Environment`,
`Header` and `Part` targets fall into the `_ => ()` arm.  An out-of-range
local index leaves the array unchanged (the `get_mut` miss is only a
`debug_assert`). -/
def setVariable (ctx : SContext) (varName : SVariableType)
    (value : SVariable) : SContext :=
  let stored := setVariableValue ctx.max_variable_size value
  match varName with
  | .Local varId =>
      if varId < ctx.vars_local.length then
        { ctx with vars_local := ctx.vars_local.set varId stored }
      else ctx
  | .Global name =>
      { ctx with vars_global := mapInsertVar ctx.vars_global name stored }
  | .Envelope env => addSetEnvelopeEvent ctx env stored
  | _ => ctx

/-! Claim-side specification helpers. -/

/-- Index of the first envelope entry of kind `env` (claim-side formulation
for the in-place update of `add_set_envelope_event`). -/
def envIdx (env : SEnvelope) : List (SEnvelope × SVariable) → Option Nat
  | [] => none
  | e :: rest => if e.1 = env then some 0 else (envIdx env rest).map (· + 1)

/-- The `did_find` loop replaces exactly the first entry of the given kind. -/
theorem setFirstEnvelope_eq (env : SEnvelope) (val : SVariable) :
    ∀ l : List (SEnvelope × SVariable),
      setFirstEnvelope l env val = (envIdx env l).map (fun i => l.set i (env, val)) := by
  intro l
  induction l with
  | nil => rfl
  | cons e rest ih =>
    obtain ⟨name, v⟩ := e
    by_cases h : name = env
    · subst h
      simp [setFirstEnvelope, envIdx]
    · simp only [setFirstEnvelope, envIdx, h, if_neg, ih]
      cases envIdx env rest <;> simp

/-! Byte-length facts for the truncation loop of `set_variable`. -/

theorem charsBytes_nil : charsBytes [] = 0 := rfl

theorem charsBytes_cons (c : Char) (l : List Char) :
    charsBytes (c :: l) = c.utf8Size + charsBytes l := by
  simp [charsBytes]

theorem charsBytes_append (a b : List Char) :
    charsBytes (a ++ b) = charsBytes a + charsBytes b := by
  simp [charsBytes]

/-- Behaviour of the greedy truncation loop: starting from accumulator `acc`
it appends the longest initial segment of `l` whose bytes still fit. -/
theorem setVarLoop_spec (m : Nat) :
    ∀ (l acc : List Char),
      ∃ k, k ≤ l.length ∧ setVarLoop m acc l = acc ++ l.take k ∧
        (charsBytes acc ≤ m → charsBytes acc + charsBytes (l.take k) ≤ m) ∧
        (∀ j, j ≤ l.length → charsBytes acc + charsBytes (l.take j) ≤ m → j ≤ k) := by
  intro l
  induction l with
  | nil =>
    intro acc
    refine ⟨0, by simp, by simp [setVarLoop], by simp [charsBytes_nil], ?_⟩
    intro j hj _
    simpa using hj
  | cons c cs ih =>
    intro acc
    by_cases hfit : c.utf8Size + charsBytes acc ≤ m
    · obtain ⟨k, hk, heq, hb, hmax⟩ := ih (acc ++ [c])
      refine ⟨k + 1, by simpa using hk, ?_, ?_, ?_⟩
      · simp only [setVarLoop, if_pos hfit, heq, List.take_succ_cons,
          List.append_assoc, List.singleton_append]
      · intro _
        have hacc : charsBytes (acc ++ [c]) ≤ m := by
          rw [charsBytes_append]
          simpa [charsBytes_cons, charsBytes_nil, Nat.add_comm] using hfit
        have := hb hacc
        rw [charsBytes_append] at this
        simp only [List.take_succ_cons, charsBytes_cons, charsBytes_nil] at *
        omega
      · intro j hj hjb
        cases j with
        | zero => omega
        | succ j' =>
          have hj' : j' ≤ cs.length := by simpa using hj
          have : charsBytes (acc ++ [c]) + charsBytes (cs.take j') ≤ m := by
            rw [charsBytes_append]
            simp only [List.take_succ_cons, charsBytes_cons] at hjb
            simp only [charsBytes_cons, charsBytes_nil]
            omega
          have := hmax j' hj' this
          omega
    · refine ⟨0, by simp, by simp [setVarLoop, if_neg hfit], by simp [charsBytes_nil], ?_⟩
      intro j hj hjb
      cases j with
      | zero => omega
      | succ j' =>
        exfalso
        simp only [List.take_succ_cons, charsBytes_cons] at hjb
        omega

/-! # Claim theorems -/

/-- C8: `Compiler::new()` (and `Compiler::default()`, which delegates to it)
configures the documented default limits: script 1 MiB, string 4096,
variable name 32, nested blocks 15, nested tests 15, nested foreverypart 3,
match variables 30, local variables 128, header 1024, includes 6. -/
theorem c8_default_limits :
    Compiler.new.max_script_size = 1048576 ∧
    Compiler.new.max_string_size = 4096 ∧
    Compiler.new.max_variable_name_size = 32 ∧
    Compiler.new.max_nested_blocks = 15 ∧
    Compiler.new.max_nested_tests = 15 ∧
    Compiler.new.max_nested_foreverypart = 3 ∧
    Compiler.new.max_match_variables = 30 ∧
    Compiler.new.max_local_variables = 128 ∧
    Compiler.new.max_header_size = 1024 ∧
    Compiler.new.max_includes = 6 ∧
    Compiler.mkDefault = Compiler.new :=
  ⟨rfl, rfl, rfl, rfl, rfl, rfl, rfl, rfl, rfl, rfl, rfl⟩

/-- C9: `set_variable` with a `Match`, `Environment`, `Header` or `Part`
target is a silent no-op — the whole context (local array, global map,
envelope list and event queue) is returned unchanged; only `Local`, `Global`
and `Envelope` targets are written by the remaining arms. -/
theorem c9_set_variable_silent_noop (ctx : SContext) (value : SVariable) :
    (∀ n, setVariable ctx (.Match n) value = ctx) ∧
    (∀ name, setVariable ctx (.Environment name) value = ctx) ∧
    (∀ h, setVariable ctx (.Header h) value = ctx) ∧
    (∀ p, setVariable ctx (.Part p) value = ctx) :=
  ⟨fun _ => rfl, fun _ => rfl, fun _ => rfl, fun _ => rfl⟩

/-- C10: `add_set_envelope_event` replaces the first envelope entry of the
given kind in place (or appends a new entry when none exists) and replaces
the whole queued-event buffer by the single `SetEnvelope` event. -/
theorem c10_add_set_envelope_event (ctx : SContext) (env : SEnvelope)
    (val : SVariable) :
    (addSetEnvelopeEvent ctx env val).queued_events = [SEvent.SetEnvelope env val] ∧
    (∀ i, envIdx env ctx.envelope = some i →
      (addSetEnvelopeEvent ctx env val).envelope = ctx.envelope.set i (env, val)) ∧
    (envIdx env ctx.envelope = none →
      (addSetEnvelopeEvent ctx env val).envelope = ctx.envelope ++ [(env, val)]) := by
  refine ⟨rfl, ?_, ?_⟩
  · intro i hi
    simp [addSetEnvelopeEvent, setFirstEnvelope_eq, hi]
  · intro hn
    simp [addSetEnvelopeEvent, setFirstEnvelope_eq, hn]

/-- Witness for C10 at concrete inputs: an envelope list containing a `From`
entry is updated in place, a missing `To` entry is appended, and the
previously queued event is discarded in both cases. -/
theorem c10_add_set_envelope_event_witness :
    (addSetEnvelopeEvent ⟨10, [], [], [(.From, ['a'])], [SEvent.Keep]⟩ .From ['b']).queued_events
        = [SEvent.SetEnvelope .From ['b']] ∧
    (addSetEnvelopeEvent ⟨10, [], [], [(.From, ['a'])], [SEvent.Keep]⟩ .From ['b']).envelope
        = [(SEnvelope.From, ['a'])].set 0 (.From, ['b']) ∧
    (addSetEnvelopeEvent ⟨10, [], [], [(.From, ['a'])], [SEvent.Keep]⟩ .To ['b']).envelope
        = [(SEnvelope.From, ['a'])] ++ [(.To, ['b'])] :=
  ⟨(c10_add_set_envelope_event ⟨10, [], [], [(.From, ['a'])], [SEvent.Keep]⟩ .From ['b']).1,
   (c10_add_set_envelope_event ⟨10, [], [], [(.From, ['a'])], [SEvent.Keep]⟩ .From ['b']).2.1
     0 (by decide),
   (c10_add_set_envelope_event ⟨10, [], [], [(.From, ['a'])], [SEvent.Keep]⟩ .To ['b']).2.2
     (by decide)⟩

/-- C7: the value stored by `set_variable` is unchanged when its byte length
is at most `max_variable_size`; otherwise it is the longest initial segment
of whole characters whose UTF-8 byte length fits — the string is never cut
inside a character.  The last conjunct ties the computed value to the store
for a `Local` target. -/
theorem c7_set_variable_truncation (maxSize : Nat) (v : List Char) :
    (charsBytes v ≤ maxSize → setVariableValue maxSize v = v) ∧
    (maxSize < charsBytes v →
      ∃ k, setVariableValue maxSize v = v.take k ∧
           charsBytes (v.take k) ≤ maxSize ∧
           ∀ j, charsBytes (v.take j) ≤ maxSize → j ≤ k) ∧
    (∀ ctx : SContext, ∀ i, ctx.max_variable_size = maxSize →
      i < ctx.vars_local.length →
      (setVariable ctx (.Local i) v).vars_local[i]? =
        some (setVariableValue maxSize v)) := by
  refine ⟨?_, ?_, ?_⟩
  · intro h
    simp [setVariableValue, Nat.not_lt.mpr h]
  · intro h
    obtain ⟨k, hk, heq, hb, hmax⟩ := setVarLoop_spec maxSize v []
    refine ⟨k, ?_, ?_, ?_⟩
    · simpa [setVariableValue, h] using heq
    · have := hb (by simp [charsBytes_nil])
      simpa [charsBytes_nil] using this
    · intro j hj
      rcases Nat.lt_or_ge v.length j with hlt | hle
      swap
      · exact hmax j hle (by simpa [charsBytes_nil] using hj)
      · exfalso
        rw [List.take_of_length_le (Nat.le_of_lt hlt)] at hj
        omega
  · intro ctx i hm hi
    subst hm
    simp [setVariable, hi, List.getElem?_set_eq_of_lt _ hi]

/-- Witness for C7 at concrete inputs: with `max_variable_size = 3`, the
four-byte string `"abcd"` is truncated to `"abc"` (and `"ab"` is left
unchanged), and the truncated value is what lands in local slot `0`. -/
theorem c7_set_variable_truncation_witness :
    setVariableValue 3 ['a', 'b'] = ['a', 'b'] ∧
    (∃ k, setVariableValue 3 ['a', 'b', 'c', 'd'] = ['a', 'b', 'c', 'd'].take k ∧
      charsBytes (['a', 'b', 'c', 'd'].take k) ≤ 3 ∧
      ∀ j, charsBytes (['a', 'b', 'c', 'd'].take j) ≤ 3 → j ≤ k) ∧
    (setVariable ⟨3, [['x']], [], [], []⟩ (.Local 0) ['a', 'b', 'c', 'd']).vars_local[0]? =
      some (setVariableValue 3 ['a', 'b', 'c', 'd']) :=
  ⟨(c7_set_variable_truncation 3 ['a', 'b']).1 (by decide),
   (c7_set_variable_truncation 3 ['a', 'b', 'c', 'd']).2.1 (by decide),
   (c7_set_variable_truncation 3 ['a', 'b', 'c', 'd']).2.2
     ⟨3, [['x']], [], [], []⟩ 0 rfl (by decide)⟩

/-! C6: case folding of variable names. -/

theorem mapGet_mapInsert_self (k : String) (v : Nat) :
    ∀ m : List (String × Nat), mapGet (mapInsert m k v) k = some v := by
  intro m
  induction m with
  | nil => simp [mapInsert, mapGet, List.find?]
  | cons e rest ih =>
    by_cases h : e.1 = k
    · simp [mapInsert, h, mapGet, List.find?]
    · simpa [mapInsert, h, mapGet, List.find?] using ih

theorem getLocalVar_congr (s : CompilerState) (a b : String)
    (h : asciiLower a = asciiLower b) : getLocalVar s a = getLocalVar s b := by
  unfold getLocalVar
  rw [h]

theorem contains_setInsert (l : List String) (n : String) :
    (if l.contains n then l else n :: l).contains n = true := by
  cases h : l.contains n
  · simp [h]
  · simpa [h] using h

theorem registerLocalVar_found (t : CompilerState) (v : String) (id : Nat)
    (h : getLocalVar t v = some id) : registerLocalVar t v = (id, t) := by
  unfold registerLocalVar
  rw [h]

/-- Example state for the C6 counterexample: a fresh compilation state. -/
def c6s : CompilerState := initState Compiler.new

/-- C6 counterexample: `register_local_var` stores the name verbatim while
the lookups lowercase their argument, so registering `"A"` and then looking
up (or registering) its case variant `"a"` does not find the assigned index
and a second, distinct index is allocated — refuting the claim that any
ASCII-case variant yields the same local index and that an index is assigned
only once. -/
theorem c6_counterexample :
    (registerLocalVar c6s "A").1 = 0 ∧
    getLocalVar (registerLocalVar c6s "A").2 "a" = none ∧
    isVarLocal (registerLocalVar c6s "A").2 "a" = false ∧
    (registerLocalVar (registerLocalVar c6s "A").2 "a").1 = 1 := by
  decide

/-- C6 amended: lookups (`get_local_var`, `is_var_local`, `is_var_global`)
and `register_global_var` ASCII-case-fold their argument, but
`register_local_var` interns the name as passed; therefore the claimed
case-insensitive identity holds for local variables provided the registered
name is already in ASCII-lowercase form (global names are folded on both
registration and lookup, so they need no such proviso). -/
theorem c6_case_folding (s : CompilerState) (name v g gv : String)
    (hlow : asciiLower name = name) (hv : asciiLower v = name)
    (hg : asciiLower gv = asciiLower g) :
    getLocalVar (registerLocalVar s name).2 v = some (registerLocalVar s name).1 ∧
    isVarLocal (registerLocalVar s name).2 v = true ∧
    registerLocalVar (registerLocalVar s name).2 v = registerLocalVar s name ∧
    isVarGlobal (registerGlobalVar s g) gv = true := by
  have hcongr : ∀ t : CompilerState, getLocalVar t v = getLocalVar t name :=
    fun t => getLocalVar_congr t v name (by rw [hv, hlow])
  have hmain : getLocalVar (registerLocalVar s name).2 v =
      some (registerLocalVar s name).1 := by
    rw [hcongr]
    unfold registerLocalVar
    cases hfind : getLocalVar s name with
    | some id => simp [hfind]
    | none =>
      simp only [hfind]
      unfold getLocalVar at hfind ⊢
      rw [hlow] at hfind ⊢
      simp [mapGet_mapInsert_self]
  refine ⟨hmain, ?_, ?_, ?_⟩
  · simp [isVarLocal, hmain]
  · rw [registerLocalVar_found _ _ _ hmain]
  · simp only [isVarGlobal, registerGlobalVar, hg]
    split
    · assumption
    · simp

/-- Witness for C6 amended at concrete inputs: the lowercase name `"x"` is
found under its variant `"X"` with the same index and without a second
allocation, and the global `"G"` is recognised under `"g"`. -/
theorem c6_case_folding_witness :
    getLocalVar (registerLocalVar c6s "x").2 "X" = some (registerLocalVar c6s "x").1 ∧
    isVarLocal (registerLocalVar c6s "x").2 "X" = true ∧
    registerLocalVar (registerLocalVar c6s "x").2 "X" = registerLocalVar c6s "x" ∧
    isVarGlobal (registerGlobalVar c6s "G") "g" = true :=
  c6_case_folding c6s "x" "X" "G" "g" (by decide) (by decide) (by decide)

/-! C2: success contract of the compile loop at end of input. -/

/-- C2: when the token stream is exhausted, `compile` returns the `Sieve`
(instruction vector, peak local count, peak match count) exactly when the
block stack is empty, and otherwise fails with `UnterminatedBlock` carrying
the line and column recorded for the innermost unclosed block. -/
theorem c2_success_contract (s : CompilerState) :
    (s.block_stack = [] →
      compileLoop s [] = .ok { instructions := s.instructions
                               num_vars := max s.vars_num_max s.vars_num
                               num_match_vars := s.vars_match_max }) ∧
    (s.block_stack ≠ [] →
      compileLoop s [] = .error { line_num := s.block.line_num
                                  line_pos := s.block.line_pos
                                  error_type := .UnterminatedBlock }) ∧
    (∀ sv, compileLoop s [] = .ok sv → s.block_stack = []) := by
  refine ⟨?_, ?_, ?_⟩
  · intro h
    simp [compileLoop, h]
  · intro h
    simp [compileLoop, h]
  · intro sv h
    by_contra hne
    simp [compileLoop, hne] at h

/-- Witness for C2 at concrete states: the fresh state succeeds at end of
input, and a state with one open `foreverypart` block at line 3, column 7
fails with `UnterminatedBlock` there. -/
theorem c2_success_contract_witness :
    compileLoop (initState Compiler.new) [] =
      .ok { instructions := [], num_vars := 0, num_match_vars := 0 } ∧
    compileLoop { initState Compiler.new with
                  block := { btype := Word.ForEveryPart, line_num := 3, line_pos := 7 }
                  block_stack := [Block.new .Not] } [] =
      .error { line_num := 3, line_pos := 7, error_type := .UnterminatedBlock } :=
  ⟨(c2_success_contract (initState Compiler.new)).1 rfl,
   (c2_success_contract { initState Compiler.new with
                          block := { btype := Word.ForEveryPart, line_num := 3, line_pos := 7 }
                          block_stack := [Block.new .Not] }).2.1 (by simp)⟩

/-! C5: instructions emitted for `return`. -/

/-- Claim-side count of the `foreverypart` loops enclosing the current
statement: one per open block of that type. -/
def enclosingFeps : List Block → Nat
  | [] => 0
  | b :: rest => (if b.btype = Word.ForEveryPart then 1 else 0) + enclosingFeps rest

theorem fepPops_eq_enclosingFeps :
    ∀ blocks : List Block, fepPops blocks = enclosingFeps blocks := by
  intro blocks
  induction blocks with
  | nil => rfl
  | cons b rest ih =>
    by_cases h : b.btype = Word.ForEveryPart <;>
      simp [fepPops, enclosingFeps, List.filter_cons, h] at * <;> omega

/-- Token-building helper for the concrete scripts below. -/
def mkTok (t : Tok) (ln lp : Nat) : TokInfo := ⟨t, ln, lp⟩

/-- Token stream of `require "include"; return;`. -/
def c5Toks : List TokInfo :=
  [mkTok (.Identifier .Require) 1 1, mkTok (.StrList [.Include]) 1 9,
   mkTok .Semicolon 1 18, mkTok (.Identifier .Return) 2 1, mkTok .Semicolon 2 8]

/-- Result of compiling `c5Toks`. -/
def c5Sieve : Sieve :=
  { instructions := [.Require [.Include], .Return], num_vars := 0, num_match_vars := 0 }

/-- C5 counterexample: compiling a `return` with zero enclosing
`foreverypart` loops emits no `ForEveryPartPop` at all (in particular not
`ForEveryPartPop(0)`), only `Return` — refuting the claim that every
`return` is compiled as `ForEveryPartPop(n)` followed by `Return`. -/
theorem c5_counterexample :
    compile Compiler.new c5Toks = Except.ok c5Sieve ∧
    Instruction.Return ∈ c5Sieve.instructions ∧
    Instruction.ForEveryPartPop 0 ∉ c5Sieve.instructions ∧
    ∀ n, Instruction.ForEveryPartPop n ∉ c5Sieve.instructions := by
  refine ⟨rfl, by decide, by decide, fun n => ?_⟩
  simp [c5Sieve]

/-- C5 amended: compiling `return` emits `ForEveryPartPop(n)` — with `n` the
number of all enclosing `foreverypart` loops in the current script —
immediately followed by `Return` when `n` is positive, and emits only
`Return` when no `foreverypart` loop encloses the statement. -/
theorem c5_return_amended (s : CompilerState) (ln lp : Nat) (semi : TokInfo)
    (rest : List TokInfo)
    (hcap : validateArgument s .Include ln lp = .ok ())
    (hsemi : semi.tok = .Semicolon) :
    compileLoop s (⟨.Identifier .Return, ln, lp⟩ :: semi :: rest) =
      compileLoop (stepReturn s) rest ∧
    (0 < enclosingFeps (s.block :: s.block_stack) →
      (stepReturn s).instructions = s.instructions ++
        [.ForEveryPartPop (enclosingFeps (s.block :: s.block_stack)), .Return]) ∧
    (enclosingFeps (s.block :: s.block_stack) = 0 →
      (stepReturn s).instructions = s.instructions ++ [.Return]) ∧
    (stepReturn s).block = s.block ∧
    (stepReturn s).block_stack = s.block_stack := by
  refine ⟨?_, ?_, ?_, rfl, rfl⟩
  · simp [compileLoop, hcap, hsemi]
  · intro hpos
    simp only [stepReturn, fepPops_eq_enclosingFeps]
    rw [if_pos hpos]
    simp
  · intro hzero
    simp only [stepReturn, fepPops_eq_enclosingFeps]
    rw [hzero]
    simp

/-- Example state for the C5 witness: inside one `foreverypart` block with
the `include` capability in scope. -/
def c5ws : CompilerState :=
  { compiler := Compiler.new
    block := { btype := Word.ForEveryPart, capabilities := [.Include] } }

/-- Witness for C5 amended at a concrete state: one enclosing loop, so the
emission is `ForEveryPartPop(1); Return`. -/
theorem c5_return_amended_witness :
    compileLoop c5ws (⟨.Identifier .Return, 2, 1⟩ :: mkTok .Semicolon 2 8 :: []) =
      compileLoop (stepReturn c5ws) [] ∧
    (stepReturn c5ws).instructions = [] ++ [.ForEveryPartPop 1, .Return] :=
  ⟨(c5_return_amended c5ws 2 1 (mkTok .Semicolon 2 8) [] rfl rfl).1,
   (c5_return_amended c5ws 2 1 (mkTok .Semicolon 2 8) [] rfl rfl).2.1 (by decide)⟩

/-! C4: the nested-foreverypart limit. -/

/-- Tokens opening one `foreverypart { ` at line `ln`. -/
def fepOpenToks (ln : Nat) : List TokInfo :=
  [mkTok (.Identifier .ForEveryPart) ln 1, mkTok .CurlyOpen ln 14]

/-- Token stream of a script with four directly nested `foreverypart` loops
(after a `require "foreverypart"`). -/
def c4Toks : List TokInfo :=
  [mkTok (.Identifier .Require) 1 1, mkTok (.StrList [.ForEveryPart]) 1 9,
   mkTok .Semicolon 1 24] ++
  fepOpenToks 2 ++ fepOpenToks 3 ++ fepOpenToks 4 ++ fepOpenToks 5 ++
  [mkTok .CurlyClose 6 1, mkTok .CurlyClose 6 2, mkTok .CurlyClose 6 3,
   mkTok .CurlyClose 6 4]

/-- Token stream with five directly nested `foreverypart` loops. -/
def c4DeepToks : List TokInfo :=
  [mkTok (.Identifier .Require) 1 1, mkTok (.StrList [.ForEveryPart]) 1 9,
   mkTok .Semicolon 1 24] ++
  fepOpenToks 2 ++ fepOpenToks 3 ++ fepOpenToks 4 ++ fepOpenToks 5 ++
  fepOpenToks 6 ++
  [mkTok .CurlyClose 7 1, mkTok .CurlyClose 7 2, mkTok .CurlyClose 7 3,
   mkTok .CurlyClose 7 4, mkTok .CurlyClose 7 5]

/-- Result of compiling `c4Toks`. -/
def c4Sieve : Sieve :=
  { instructions :=
      [.Require [.ForEveryPart],
       .ForEveryPartPush, .ForEveryPart 13,
       .ForEveryPartPush, .ForEveryPart 12,
       .ForEveryPartPush, .ForEveryPart 11,
       .ForEveryPartPush, .ForEveryPart 10,
       .Jmp 8, .Jmp 6, .Jmp 4, .Jmp 2]
    num_vars := 0
    num_match_vars := 0 }

/-- C4 counterexample: with the default limit `max_nested_foreverypart = 3`,
a script whose `foreverypart` loops are directly nested four deep compiles
successfully — refuting the claim that every script nested more than
`max_nested_foreverypart` deep is rejected.  (The check at the
`foreverypart` token counts only the blocks already on the stack, not the
current block.) -/
theorem c4_counterexample :
    Compiler.new.max_nested_foreverypart = 3 ∧
    compile Compiler.new c4Toks = Except.ok c4Sieve :=
  ⟨rfl, rfl⟩

/-- C4 amended: the `foreverypart` arm fails with
`TooManyNestedForEveryParts` exactly when the blocks already pushed on the
stack include `max_nested_foreverypart` loops of that type; since the
current block is not counted, directly nested loops are accepted up to depth
`max_nested_foreverypart + 1`, and one level deeper is rejected (the second
conjunct pair shows the concrete boundary at the default limit 3: depth 4
accepted, depth 5 rejected at the fifth `foreverypart`). -/
theorem c4_nesting_amended (s : CompilerState) (ln lp : Nat) :
    (enclosingFeps s.block_stack = s.compiler.max_nested_foreverypart →
      fepNestingCheck s ln lp =
        .error { line_num := ln, line_pos := lp
                 error_type := .TooManyNestedForEveryParts }) ∧
    (enclosingFeps s.block_stack ≠ s.compiler.max_nested_foreverypart →
      fepNestingCheck s ln lp = .ok ()) ∧
    compile Compiler.new c4Toks = Except.ok c4Sieve ∧
    compile Compiler.new c4DeepToks =
      .error { line_num := 6, line_pos := 1
               error_type := .TooManyNestedForEveryParts } := by
  have hcnt : (s.block_stack.filter (fun b => b.btype = Word.ForEveryPart)).length =
      enclosingFeps s.block_stack := fepPops_eq_enclosingFeps s.block_stack
  refine ⟨?_, ?_, rfl, rfl⟩
  · intro h
    simp [fepNestingCheck, hcnt, h]
  · intro h
    simp [fepNestingCheck, hcnt, h]

/-- Witness for C4 amended at concrete states: a stack holding three
`foreverypart` blocks triggers the error, a stack holding two does not. -/
theorem c4_nesting_amended_witness :
    fepNestingCheck { initState Compiler.new with
                      block_stack := [Block.new .ForEveryPart, Block.new .ForEveryPart,
                                      Block.new .ForEveryPart] } 4 1 =
      .error { line_num := 4, line_pos := 1
               error_type := .TooManyNestedForEveryParts } ∧
    fepNestingCheck { initState Compiler.new with
                      block_stack := [Block.new .ForEveryPart, Block.new .ForEveryPart] } 3 1 =
      .ok () :=
  ⟨(c4_nesting_amended { initState Compiler.new with
                         block_stack := [Block.new .ForEveryPart, Block.new .ForEveryPart,
                                         Block.new .ForEveryPart] } 4 1).1 (by decide),
   (c4_nesting_amended { initState Compiler.new with
                         block_stack := [Block.new .ForEveryPart, Block.new .ForEveryPart] } 3 1).2.1
     (by decide)⟩

/-! C3: the break statement. -/

/-- Claim-side target of a labelled `break`: walking the open blocks
outward, the pair of (index of the first `foreverypart` block carrying the
label, number of `foreverypart` loops crossed up to and including it). -/
def fepTarget (lab : String) : List Block → Option (Nat × Nat)
  | [] => none
  | b :: rest =>
    if b.btype = Word.ForEveryPart then
      if b.label = some lab then some (0, 1)
      else (fepTarget lab rest).map (fun p => (p.1 + 1, p.2 + 1))
    else (fepTarget lab rest).map (fun p => (p.1 + 1, p.2))

/-- Claim-side target of an unlabelled `break`: index of the innermost open
`foreverypart` block. -/
def fepIdx : List Block → Option Nat
  | [] => none
  | b :: rest =>
    if b.btype = Word.ForEveryPart then some 0 else (fepIdx rest).map (· + 1)

/-- Record a break-jump position in the block at index `i` of the chain. -/
def pushBreakAt (j : Nat) : List Block → Nat → List Block
  | [], _ => []
  | b :: rest, 0 => { b with break_jmps := b.break_jmps ++ [j] } :: rest
  | b :: rest, i + 1 => b :: pushBreakAt j rest i

theorem fepIdx_cons (b : Block) (rest : List Block) :
    fepIdx (b :: rest) =
      if b.btype = Word.ForEveryPart then some 0 else (fepIdx rest).map (· + 1) := rfl

theorem getElem?_some_lt {l : List Instruction} {p : Nat} {i : Instruction}
    (h : l[p]? = some i) : p < l.length := by
  by_contra hge
  rw [List.getElem?_eq_none (Nat.le_of_not_lt hge)] at h
  exact Option.noConfusion h

theorem blockEnd_block (s : CompilerState) : (blockEnd s).block = s.block := by
  unfold blockEnd
  split
  · rfl
  · split <;> rfl

theorem blockEnd_block_stack (s : CompilerState) :
    (blockEnd s).block_stack = s.block_stack := by
  unfold blockEnd
  split
  · rfl
  · split <;> rfl

theorem blockEnd_last_block_type (s : CompilerState) :
    (blockEnd s).last_block_type = s.last_block_type := by
  unfold blockEnd
  split
  · rfl
  · split <;> rfl

theorem blockEnd_compiler (s : CompilerState) :
    (blockEnd s).compiler = s.compiler := by
  unfold blockEnd
  split
  · rfl
  · split <;> rfl

theorem blockEnd_len_ge (s : CompilerState) :
    s.instructions.length ≤ (blockEnd s).instructions.length := by
  unfold blockEnd
  split
  · simp
  · split <;> simp

theorem blockEnd_getElem? (s : CompilerState) (p : Nat) (i : Instruction)
    (h : s.instructions[p]? = some i) :
    (blockEnd s).instructions[p]? = some i := by
  unfold blockEnd
  split
  · rw [List.getElem?_append_left (getElem?_some_lt h)]
    exact h
  · split
    · rw [List.getElem?_append_left (getElem?_some_lt h)]
      exact h
    · exact h

theorem blockEnd_getElem?_rev (s : CompilerState) (p : Nat) (i : Instruction)
    (hlt : p < s.instructions.length)
    (h : (blockEnd s).instructions[p]? = some i) :
    s.instructions[p]? = some i := by
  revert h
  unfold blockEnd
  split
  · rw [List.getElem?_append_left hlt]
    exact id
  · split
    · rw [List.getElem?_append_left hlt]
      exact id
    · exact id

theorem blockEnd_new_no_jump (s : CompilerState) (p : Nat) (i : Instruction)
    (hge : s.instructions.length ≤ p)
    (h : (blockEnd s).instructions[p]? = some i) :
    ∃ mv vi vn, i = .Clear mv vi vn := by
  revert h
  unfold blockEnd
  split
  · intro h
    rcases Nat.lt_or_ge p (s.instructions.length + 1) with hlt | hge2
    · rw [List.getElem?_append_right hge] at h
      have : p - s.instructions.length = 0 := by omega
      rw [this] at h
      simp only [List.getElem?_cons_zero] at h
      cases h
      exact ⟨_, _, _, rfl⟩
    · rw [List.getElem?_eq_none (by simp; omega)] at h
      exact Option.noConfusion h
  · split
    · intro h
      rcases Nat.lt_or_ge p (s.instructions.length + 1) with hlt | hge2
      · rw [List.getElem?_append_right hge] at h
        have : p - s.instructions.length = 0 := by omega
        rw [this] at h
        simp only [List.getElem?_cons_zero] at h
        cases h
        exact ⟨_, _, _, rfl⟩
      · rw [List.getElem?_eq_none (by simp; omega)] at h
        exact Option.noConfusion h
    · intro h
      rw [List.getElem?_eq_none hge] at h
      exact Option.noConfusion h

theorem scanBreakLabel_eq (lab : String) (j : Nat) :
    ∀ (blocks : List Block) (pops : Nat),
      scanBreakLabel lab j blocks pops =
        (fepTarget lab blocks).map
          (fun p => (pops + p.2, pushBreakAt j blocks p.1)) := by
  intro blocks
  induction blocks with
  | nil => intro pops; rfl
  | cons b rest ih =>
    intro pops
    by_cases hb : b.btype = Word.ForEveryPart
    · by_cases hl : b.label = some lab
      · simp [scanBreakLabel, fepTarget, hb, hl, pushBreakAt, Nat.add_comm]
      · simp only [scanBreakLabel, fepTarget, hb, hl, if_pos, if_neg, ih (pops + 1)]
        cases fepTarget lab rest with
        | none => simp
        | some p => simp [pushBreakAt]; omega
    · simp only [scanBreakLabel, fepTarget, hb, if_neg, ih pops]
      cases fepTarget lab rest with
      | none => simp
      | some p => simp [pushBreakAt]

theorem addBreakJmp_eq (j : Nat) :
    ∀ stack : List Block,
      addBreakJmp j stack = (fepIdx stack).map (fun i => pushBreakAt j stack i) := by
  intro stack
  induction stack with
  | nil => rfl
  | cons b rest ih =>
    by_cases hb : b.btype = Word.ForEveryPart
    · simp [addBreakJmp, fepIdx, hb, pushBreakAt]
    · simp only [addBreakJmp, fepIdx, hb, if_neg, ih]
      cases fepIdx rest with
      | none => simp
      | some i => simp [pushBreakAt]

theorem pushBreakAt_cons_ne_nil (j : Nat) (c : Block) (rest : List Block) (i : Nat) :
    ∃ b' stk', pushBreakAt j (c :: rest) i = b' :: stk' := by
  cases i with
  | zero => exact ⟨_, _, rfl⟩
  | succ i' => exact ⟨_, _, rfl⟩

/-! Patch lemmas shared by C3 and C1. -/

theorem patchJmp_length (l : List Instruction) (p t : Nat) :
    (patchJmp l p t).length = l.length := by
  unfold patchJmp
  split <;> simp

theorem patchJz_length (l : List Instruction) (p t : Nat) :
    (patchJz l p t).length = l.length := by
  unfold patchJz
  split <;> simp

theorem patchFep_length (l : List Instruction) (p t : Nat) :
    (patchFep l p t).length = l.length := by
  unfold patchFep
  split <;> simp

theorem patchJmps_length (poss : List Nat) :
    ∀ (l : List Instruction) (t : Nat), (patchJmps l poss t).length = l.length := by
  induction poss with
  | nil => intro l t; rfl
  | cons q rest ih =>
    intro l t
    show (patchJmps (patchJmp l q t) rest t).length = l.length
    rw [ih, patchJmp_length]

theorem patchJmp_at_jmp {l : List Instruction} {p : Nat} {a : Nat} (t : Nat)
    (h : l[p]? = some (.Jmp a)) : (patchJmp l p t)[p]? = some (.Jmp t) := by
  unfold patchJmp
  rw [h]
  exact List.getElem?_set_eq_of_lt _ (getElem?_some_lt h)

theorem patchJmp_getElem?_ne (l : List Instruction) (p t q : Nat) (h : q ≠ p) :
    (patchJmp l p t)[q]? = l[q]? := by
  unfold patchJmp
  split
  · rw [List.getElem?_set_ne (fun he => h he.symm)]
  · rfl

theorem patchJmp_not_jmp {l : List Instruction} {p : Nat} {i : Instruction}
    (t : Nat) (h : l[p]? = some i) (hi : ∀ b, i ≠ .Jmp b) :
    patchJmp l p t = l := by
  unfold patchJmp
  rw [h]
  cases i <;> first
    | rfl
    | exact absurd rfl (hi _)

theorem patchJmps_at_jmp (t : Nat) :
    ∀ (poss : List Nat) (l : List Instruction) (p a : Nat),
      l[p]? = some (.Jmp a) →
      ((p ∈ poss → (patchJmps l poss t)[p]? = some (.Jmp t)) ∧
       (p ∉ poss → (patchJmps l poss t)[p]? = some (.Jmp a))) := by
  intro poss
  induction poss with
  | nil =>
    intro l p a h
    exact ⟨fun hm => absurd hm (List.not_mem_nil p), fun _ => h⟩
  | cons q rest ih =>
    intro l p a h
    by_cases hpq : p = q
    · subst hpq
      have h1 : (patchJmp l p t)[p]? = some (.Jmp t) := patchJmp_at_jmp t h
      have := ih (patchJmp l p t) p t h1
      constructor
      · intro _
        by_cases hr : p ∈ rest
        · exact this.1 hr
        · exact this.2 hr
      · intro hnm
        exact absurd (List.mem_cons_self p rest) hnm
    · have h1 : (patchJmp l q t)[p]? = l[p]? := patchJmp_getElem?_ne l q t p hpq
      have h2 : (patchJmp l q t)[p]? = some (.Jmp a) := by rw [h1, h]
      have := ih (patchJmp l q t) p a h2
      constructor
      · intro hm
        rcases List.mem_cons.mp hm with he | hr
        · exact absurd he hpq
        · exact this.1 hr
      · intro hnm
        exact this.2 (fun hr => hnm (List.mem_cons_of_mem q hr))

theorem patchJmps_not_jmp (t : Nat) :
    ∀ (poss : List Nat) (l : List Instruction) (p : Nat) (i : Instruction),
      l[p]? = some i → (∀ b, i ≠ .Jmp b) →
      (patchJmps l poss t)[p]? = some i := by
  intro poss
  induction poss with
  | nil => intro l p i h _; exact h
  | cons q rest ih =>
    intro l p i h hi
    by_cases hpq : p = q
    · subst hpq
      exact ih (patchJmp l p t) p i (by rw [patchJmp_not_jmp t h hi, h]) hi
    · exact ih (patchJmp l q t) p i
        (by rw [patchJmp_getElem?_ne l q t p hpq, h]) hi

theorem patchFep_at_jmp {l : List Instruction} {p a : Nat} (q t : Nat)
    (h : l[p]? = some (.Jmp a)) : (patchFep l q t)[p]? = some (.Jmp a) := by
  by_cases hpq : p = q
  · subst hpq
    unfold patchFep
    rw [h]
    exact h
  · unfold patchFep
    split
    · rw [List.getElem?_set_ne (fun he => hpq he.symm), h]
    · exact h

/-- C3: compiling `break` — with a label, the open blocks are scanned
outward counting `foreverypart` blocks until the one labelled `L`;
`ForEveryPartPop(n)` (`n` the loops crossed, inclusive) and a sentinel `Jmp`
are emitted and the jump position is recorded in that block's `break_jmps`
(failing with `LabelUndefined` when no enclosing `foreverypart` carries the
label); without a label the innermost `foreverypart` receives the jump with
`ForEveryPartPop(1)` (failing with `BreakOutsideLoop` when none is open);
and on closing a `foreverypart` block every recorded `Jmp` is patched to the
first instruction after the loop (the position after the loop's closing
`Jmp`). -/
theorem c3_break (s : CompilerState) (lab : String) (tl tp ln lp : Nat) :
    (∀ i n, fepTarget lab (s.block :: s.block_stack) = some (i, n) →
      ∃ s', stepBreakLabelled s lab tl tp = .ok s' ∧
        s'.instructions = s.instructions ++ [.ForEveryPartPop n, .Jmp usizeMax] ∧
        s'.block :: s'.block_stack =
          pushBreakAt (s.instructions.length + 1) (s.block :: s.block_stack) i) ∧
    (fepTarget lab (s.block :: s.block_stack) = none →
      stepBreakLabelled s lab tl tp =
        .error { line_num := tl, line_pos := tp, error_type := .LabelUndefined lab }) ∧
    (∀ i, fepIdx (s.block :: s.block_stack) = some i →
      ∃ s', stepBreakPlain s ln lp = .ok s' ∧
        s'.instructions = s.instructions ++ [.ForEveryPartPop 1, .Jmp usizeMax] ∧
        s'.block :: s'.block_stack =
          pushBreakAt (s.instructions.length + 1) (s.block :: s.block_stack) i) ∧
    (fepIdx (s.block :: s.block_stack) = none →
      stepBreakPlain s ln lp =
        .error { line_num := ln, line_pos := lp, error_type := .BreakOutsideLoop }) ∧
    (s.block.btype = Word.ForEveryPart →
      ∀ prev stk nib, ∀ p ∈ s.block.break_jmps, ∀ a,
        s.instructions[p]? = some (.Jmp a) →
        (closeBlock s prev stk nib).instructions[p]? =
          some (.Jmp ((blockEnd s).instructions.length + 1))) := by
  refine ⟨?_, ?_, ?_, ?_, ?_⟩
  · intro i n htgt
    obtain ⟨b', stk', hps⟩ :=
      pushBreakAt_cons_ne_nil (s.instructions.length + 1) s.block s.block_stack i
    have hscan : scanBreakLabel lab (s.instructions.length + 1)
        (s.block :: s.block_stack) 0 = some (n, b' :: stk') := by
      rw [scanBreakLabel_eq, htgt]
      rw [show Option.map
            (fun p => (0 + p.2,
              pushBreakAt (s.instructions.length + 1) (s.block :: s.block_stack) p.1))
            (some (i, n)) =
          some (0 + n,
            pushBreakAt (s.instructions.length + 1) (s.block :: s.block_stack) i)
          from rfl]
      rw [hps, Nat.zero_add]
    unfold stepBreakLabelled
    rw [hscan]
    exact ⟨_, rfl, rfl, by rw [hps]⟩
  · intro htgt
    have hscan : scanBreakLabel lab (s.instructions.length + 1)
        (s.block :: s.block_stack) 0 = none := by
      rw [scanBreakLabel_eq, htgt]
      rfl
    unfold stepBreakLabelled
    rw [hscan]
  · intro i hidx
    by_cases hcur : s.block.btype = Word.ForEveryPart
    · have h0 : fepIdx (s.block :: s.block_stack) = some 0 := by
        rw [fepIdx_cons, if_pos hcur]
      rw [h0] at hidx
      cases hidx
      unfold stepBreakPlain
      rw [if_pos hcur]
      refine ⟨_, rfl, by simp, ?_⟩
      simp [pushBreakAt]
    · have hstep : fepIdx (s.block :: s.block_stack) = (fepIdx s.block_stack).map (· + 1) := by
        rw [fepIdx_cons, if_neg hcur]
      cases hfs : fepIdx s.block_stack with
      | none =>
        rw [hstep, hfs] at hidx
        exact absurd hidx (by simp)
      | some i' =>
        rw [hstep, hfs] at hidx
        simp only [Option.map] at hidx
        cases hidx
        have hadd : addBreakJmp (s.instructions ++ [Instruction.ForEveryPartPop 1]).length
            s.block_stack =
            some (pushBreakAt (s.instructions ++ [Instruction.ForEveryPartPop 1]).length
              s.block_stack i') := by
          rw [addBreakJmp_eq, hfs]
          rfl
        unfold stepBreakPlain
        rw [if_neg hcur, hadd]
        refine ⟨_, rfl, by simp, ?_⟩
        have hlen : (s.instructions ++ [Instruction.ForEveryPartPop 1]).length =
            s.instructions.length + 1 := by simp
        rw [hlen]
        simp [pushBreakAt]
  · intro hidx
    rw [fepIdx_cons] at hidx
    have hcur : ¬ s.block.btype = Word.ForEveryPart := by
      intro hc
      rw [if_pos hc] at hidx
      exact Option.noConfusion hidx
    rw [if_neg hcur] at hidx
    have hstk : fepIdx s.block_stack = none := by
      cases hfs : fepIdx s.block_stack with
      | none => rfl
      | some i' =>
        rw [hfs] at hidx
        exact Option.noConfusion hidx
    have hadd : addBreakJmp (s.instructions ++ [Instruction.ForEveryPartPop 1]).length
        s.block_stack = none := by
      rw [addBreakJmp_eq, hstk]
      rfl
    unfold stepBreakPlain
    rw [if_neg hcur, hadd]
  · intro hfep prev stk nib p hp a hja
    have hs1instr : (blockEnd s).instructions[p]? = some (.Jmp a) :=
      blockEnd_getElem? s p _ hja
    unfold closeBlock
    simp only [blockEnd_block, hfep]
    have h1 : ((blockEnd s).instructions ++ [Instruction.Jmp prev.last_block_start])[p]? =
        some (.Jmp a) := by
      rw [List.getElem?_append_left (getElem?_some_lt hs1instr)]
      exact hs1instr
    have h2 := patchFep_at_jmp prev.last_block_start
      ((blockEnd s).instructions ++ [Instruction.Jmp prev.last_block_start]).length h1
    have h3 := (patchJmps_at_jmp
      ((blockEnd s).instructions ++ [Instruction.Jmp prev.last_block_start]).length
      s.block.break_jmps _ p a h2).1 hp
    rw [h3]
    congr 2
    simp

/-- Example state for the C3 witness: inside a `foreverypart` block labelled
`"outer"` with one recorded break jump at position 0 over a one-instruction
program. -/
def c3ws : CompilerState :=
  { compiler := Compiler.new
    instructions := [.Jmp usizeMax]
    block := { btype := Word.ForEveryPart, label := some "outer", break_jmps := [0] } }

/-- Example state for the C3 witness error cases: no open `foreverypart`. -/
def c3wsNone : CompilerState := initState Compiler.new

/-- Witness for C3 at concrete states: the labelled and unlabelled `break`
succeed inside the labelled loop (target index 0, one loop crossed), fail
outside any loop, and closing the loop patches the recorded jump to the
position after the loop's closing `Jmp`. -/
theorem c3_break_witness :
    (∃ s', stepBreakLabelled c3ws "outer" 5 3 = .ok s' ∧
      s'.instructions = c3ws.instructions ++ [.ForEveryPartPop 1, .Jmp usizeMax] ∧
      s'.block :: s'.block_stack =
        pushBreakAt (c3ws.instructions.length + 1) (c3ws.block :: c3ws.block_stack) 0) ∧
    stepBreakLabelled c3wsNone "outer" 5 3 =
      .error { line_num := 5, line_pos := 3, error_type := .LabelUndefined "outer" } ∧
    (∃ s', stepBreakPlain c3ws 6 1 = .ok s' ∧
      s'.instructions = c3ws.instructions ++ [.ForEveryPartPop 1, .Jmp usizeMax] ∧
      s'.block :: s'.block_stack =
        pushBreakAt (c3ws.instructions.length + 1) (c3ws.block :: c3ws.block_stack) 0) ∧
    stepBreakPlain c3wsNone 6 1 =
      .error { line_num := 6, line_pos := 1, error_type := .BreakOutsideLoop } ∧
    (closeBlock c3ws (Block.new .Not) [] false).instructions[0]? =
      some (.Jmp ((blockEnd c3ws).instructions.length + 1)) :=
  ⟨(c3_break c3ws "outer" 5 3 6 1).1 0 1 (by decide),
   (c3_break c3wsNone "outer" 5 3 6 1).2.1 (by decide),
   (c3_break c3ws "outer" 5 3 6 1).2.2.1 0 (by decide),
   (c3_break c3wsNone "outer" 5 3 6 1).2.2.2.1 (by decide),
   (c3_break c3ws "outer" 5 3 6 1).2.2.2.2 rfl (Block.new .Not) [] false 0
     (by decide) usizeMax (by decide)⟩

/-! C1: jump closure of successfully compiled programs. -/

/-- Target address carried by a jump instruction, including the `jz_pos`
field of `ForEveryPart`. -/
def jumpTarget : Instruction → Option Nat
  | .Jmp a => some a
  | .Jz a => some a
  | .Jnz a => some a
  | .ForEveryPart a => some a
  | _ => none

/-- Jump closure exactly as claimed: every target differs from the sentinel
and is strictly below the instruction count. -/
def JumpClosureStrict (sv : Sieve) : Prop :=
  ∀ (p : Nat) (i : Instruction) (a : Nat),
    sv.instructions[p]? = some i → jumpTarget i = some a →
    a ≠ usizeMax ∧ a < sv.instructions.length

/-- Amended jump closure: every target differs from the sentinel and is at
most the instruction count (a target equal to the length is the ordinary
"jump to the end of the program"). -/
def JumpClosureLe (sv : Sieve) : Prop :=
  ∀ (p : Nat) (i : Instruction) (a : Nat),
    sv.instructions[p]? = some i → jumpTarget i = some a →
    a ≠ usizeMax ∧ a ≤ sv.instructions.length

/-- Token stream of `require "foreverypart"; foreverypart \x7b \x7d`. -/
def c1Toks : List TokInfo :=
  [mkTok (.Identifier .Require) 1 1, mkTok (.StrList [.ForEveryPart]) 1 9,
   mkTok .Semicolon 1 24, mkTok (.Identifier .ForEveryPart) 2 1,
   mkTok .CurlyOpen 2 14, mkTok .CurlyClose 2 15]

/-- Result of compiling `c1Toks`: the loop's `jz_pos` is patched to the
position right after the loop's closing `Jmp`, which here is the length of
the program. -/
def c1Sieve : Sieve :=
  { instructions :=
      [.Require [.ForEveryPart], .ForEveryPartPush, .ForEveryPart 4, .Jmp 2]
    num_vars := 0
    num_match_vars := 0 }

/-- C1 counterexample: an accepted script whose `ForEveryPart.jz_pos` equals
the length of the instruction vector (4), violating the claimed strict
bound `< len`. -/
theorem c1_counterexample :
    compile Compiler.new c1Toks = Except.ok c1Sieve ∧ ¬ JumpClosureStrict c1Sieve := by
  refine ⟨rfl, fun h => ?_⟩
  have := h 2 (.ForEveryPart 4) 4 (by decide) rfl
  exact absurd this.2 (by decide)

/-! Invariant machinery for the amended jump-closure proof. -/

/-- Open blocks, innermost first. -/
def chain (s : CompilerState) : List Block := s.block :: s.block_stack

/-- Condition under which the innermost block's pending `if_jmps` are still
reachable for patching: the chain just closed an `if`/`elsif` and the next
token continues the chain. -/
def cond0 (s : CompilerState) (ts : List TokInfo) : Bool :=
  nextIsElsIfElse ts &&
    (s.last_block_type = Word.If || s.last_block_type = Word.ElsIf)

/-- Pairs (child block type, parent `last_block_start`) along the chain of
open blocks; the parent's `last_block_start` is the address of the child's
controlling instruction. -/
def lbsPairs : List Block → List (Word × Nat)
  | c :: p :: rest => (c.btype, p.last_block_start) :: lbsPairs (p :: rest)
  | _ => []

/-- Break-jump positions recorded in open `foreverypart` blocks. -/
def fepBreakJmps : List Block → List Nat
  | [] => []
  | b :: rest =>
      (if b.btype = Word.ForEveryPart then b.break_jmps else []) ++ fepBreakJmps rest

/-- Pending `if_jmps` of enclosing blocks that are still patchable: a
block's list is live while its open child is an `elsif`/`else` of the same
chain. -/
def liveIfAux (child : Block) : List Block → List Nat
  | [] => []
  | b :: rest =>
      (if child.btype = Word.ElsIf ∨ child.btype = Word.Else then b.if_jmps else []) ++
        liveIfAux b rest

/-- All pending `if_jmps` that are still patchable; the innermost block's
own list is live only under `c0` (see `cond0`). -/
def liveIfJmps (blocks : List Block) (c0 : Bool) : List Nat :=
  match blocks with
  | [] => []
  | b :: rest => (if c0 then b.if_jmps else []) ++ liveIfAux b rest

/-- Shape of the chain: the outermost block is the root of type `Not`,
every other open block is an `if`/`elsif`/`else`/`foreverypart`. -/
def chainTypesOk : List Block → Prop
  | [] => True
  | [b] => b.btype = Word.Not
  | b :: rest =>
      (b.btype = Word.If ∨ b.btype = Word.ElsIf ∨ b.btype = Word.Else ∨
        b.btype = Word.ForEveryPart) ∧ chainTypesOk rest

/-- Loop invariant of `Compiler::compile` relating the emitted instructions
to the open-block chain: targets never exceed the current length; a sentinel
`Jz`/`ForEveryPart` is always the controlling instruction of an open
`if`/`elsif`/`foreverypart` block; a sentinel `Jmp` is recorded either in an
open `foreverypart`'s `break_jmps` or in a still-live `if_jmps` list; no
`Jnz` is emitted by the modelled statements; and parents of open
`foreverypart` blocks point their `last_block_start` into the program. -/
structure InvP (instrs : List Instruction) (ch : List Block) (c0 : Bool) : Prop where
  targsLe : ∀ (p : Nat) (i : Instruction) (a : Nat),
    instrs[p]? = some i → jumpTarget i = some a →
    a = usizeMax ∨ a ≤ instrs.length
  noJnz : ∀ (p a : Nat), ¬ instrs[p]? = some (.Jnz a)
  jzT : ∀ (p : Nat), instrs[p]? = some (.Jz usizeMax) →
    ((Word.If, p) ∈ lbsPairs ch ∨ (Word.ElsIf, p) ∈ lbsPairs ch) ∨
      usizeMax ≤ instrs.length
  fepT : ∀ (p : Nat), instrs[p]? = some (.ForEveryPart usizeMax) →
    (Word.ForEveryPart, p) ∈ lbsPairs ch ∨ usizeMax ≤ instrs.length
  jmpT : ∀ (p : Nat), instrs[p]? = some (.Jmp usizeMax) →
    (p ∈ fepBreakJmps ch ∨ p ∈ liveIfJmps ch c0) ∨ usizeMax ≤ instrs.length
  fepLbs : ∀ q ∈ lbsPairs ch, q.1 = Word.ForEveryPart → q.2 < instrs.length
  types : chainTypesOk ch

theorem getElem?_append_cases {l new : List Instruction} {p : Nat} {i : Instruction}
    (h : (l ++ new)[p]? = some i) :
    l[p]? = some i ∨ ∃ k, p = l.length + k ∧ new[k]? = some i := by
  rcases Nat.lt_or_ge p l.length with hlt | hge
  · left
    rw [List.getElem?_append_left hlt] at h
    exact h
  · right
    refine ⟨p - l.length, by omega, ?_⟩
    rw [List.getElem?_append_right hge] at h
    exact h

theorem liveIfJmps_false_sub (blocks : List Block) (c0 : Bool) :
    ∀ p ∈ liveIfJmps blocks false, p ∈ liveIfJmps blocks c0 := by
  intro p hp
  cases blocks with
  | nil => simp [liveIfJmps] at hp
  | cons b rest =>
    simp only [liveIfJmps, if_neg Bool.false_ne_true, List.nil_append] at hp
    cases c0 with
    | false => simpa [liveIfJmps] using hp
    | true =>
      simp only [liveIfJmps, if_pos, List.mem_append]
      exact Or.inr hp

theorem invP_mono {instrs : List Instruction} {ch : List Block} (c0 : Bool)
    (h : InvP instrs ch false) : InvP instrs ch c0 where
  targsLe := h.targsLe
  noJnz := h.noJnz
  jzT := h.jzT
  fepT := h.fepT
  jmpT := fun p hp =>
    (h.jmpT p hp).imp
      (fun hin => hin.imp id (fun hm => liveIfJmps_false_sub ch c0 p hm)) id
  fepLbs := h.fepLbs
  types := h.types

theorem invP_append {instrs : List Instruction} {ch : List Block} {c0 : Bool}
    (new : List Instruction) (h : InvP instrs ch c0)
    (hnew : ∀ (k : Nat) (i : Instruction), new[k]? = some i → jumpTarget i = none) :
    InvP (instrs ++ new) ch c0 where
  targsLe := by
    intro p i a hp ha
    rcases getElem?_append_cases hp with hold | ⟨k, _, hk⟩
    · rcases h.targsLe p i a hold ha with hm | hle
      · exact Or.inl hm
      · exact Or.inr (by simp; omega)
    · rw [hnew k i hk] at ha
      exact Option.noConfusion ha
  noJnz := by
    intro p a hp
    rcases getElem?_append_cases hp with hold | ⟨k, _, hk⟩
    · exact h.noJnz p a hold
    · exact Option.noConfusion (hnew k _ hk)
  jzT := by
    intro p hp
    rcases getElem?_append_cases hp with hold | ⟨k, _, hk⟩
    · exact (h.jzT p hold).imp id (fun hlen => le_trans hlen (by simp))
    · exact Option.noConfusion (hnew k _ hk)
  fepT := by
    intro p hp
    rcases getElem?_append_cases hp with hold | ⟨k, _, hk⟩
    · exact (h.fepT p hold).imp id (fun hlen => le_trans hlen (by simp))
    · exact Option.noConfusion (hnew k _ hk)
  jmpT := by
    intro p hp
    rcases getElem?_append_cases hp with hold | ⟨k, _, hk⟩
    · exact (h.jmpT p hold).imp id (fun hlen => le_trans hlen (by simp))
    · exact Option.noConfusion (hnew k _ hk)
  fepLbs := by
    intro q hq hfep
    have := h.fepLbs q hq hfep
    simp
    omega
  types := h.types

theorem lbsPairs_head_congr (b b' : Block) (rest : List Block)
    (ht : b'.btype = b.btype) : lbsPairs (b' :: rest) = lbsPairs (b :: rest) := by
  cases rest with
  | nil => rfl
  | cons p r => simp [lbsPairs, ht]

theorem fepBreakJmps_head_congr (b b' : Block) (rest : List Block)
    (ht : b'.btype = b.btype) (hb : b'.break_jmps = b.break_jmps) :
    fepBreakJmps (b' :: rest) = fepBreakJmps (b :: rest) := by
  simp [fepBreakJmps, ht, hb]

theorem liveIfAux_congr (c c' : Block) (ht : c'.btype = c.btype) :
    ∀ rest : List Block, liveIfAux c' rest = liveIfAux c rest := by
  intro rest
  cases rest with
  | nil => rfl
  | cons b r => simp [liveIfAux, ht]

theorem liveIfJmps_head_congr (b b' : Block) (rest : List Block) (c0 : Bool)
    (ht : b'.btype = b.btype) (hi : b'.if_jmps = b.if_jmps) :
    liveIfJmps (b' :: rest) c0 = liveIfJmps (b :: rest) c0 := by
  simp [liveIfJmps, hi, liveIfAux_congr b b' ht]

theorem chainTypesOk_head_congr (b b' : Block) (rest : List Block)
    (ht : b'.btype = b.btype) :
    chainTypesOk (b' :: rest) ↔ chainTypesOk (b :: rest) := by
  cases rest with
  | nil => simp [chainTypesOk, ht]
  | cons p r => simp [chainTypesOk, ht]

theorem invP_head_congr {instrs : List Instruction} {c0 : Bool}
    (b b' : Block) (rest : List Block)
    (ht : b'.btype = b.btype) (hi : b'.if_jmps = b.if_jmps)
    (hb : b'.break_jmps = b.break_jmps)
    (h : InvP instrs (b :: rest) c0) : InvP instrs (b' :: rest) c0 where
  targsLe := h.targsLe
  noJnz := h.noJnz
  jzT := by
    intro p hp
    rw [lbsPairs_head_congr b b' rest ht]
    exact h.jzT p hp
  fepT := by
    intro p hp
    rw [lbsPairs_head_congr b b' rest ht]
    exact h.fepT p hp
  jmpT := by
    intro p hp
    rw [fepBreakJmps_head_congr b b' rest ht hb,
        liveIfJmps_head_congr b b' rest c0 ht hi]
    exact h.jmpT p hp
  fepLbs := by
    intro q hq
    rw [lbsPairs_head_congr b b' rest ht] at hq
    exact h.fepLbs q hq
  types := (chainTypesOk_head_congr b b' rest ht).mpr h.types

theorem chain_blockEnd (s : CompilerState) : chain (blockEnd s) = chain s := by
  unfold chain
  rw [blockEnd_block, blockEnd_block_stack]

theorem invP_blockEnd (s : CompilerState) (c0 : Bool)
    (h : InvP s.instructions (chain s) c0) :
    InvP (blockEnd s).instructions (chain s) c0 := by
  unfold blockEnd
  split
  · exact invP_append _ h (by intro k i hk; cases k with
      | zero => cases hk; rfl
      | succ k' => simp at hk)
  · split
    · exact invP_append _ h (by intro k i hk; cases k with
        | zero => cases hk; rfl
        | succ k' => simp at hk)
    · exact h

/-- Shape of a block as far as the jump-tracking invariant is concerned:
type, controlling-instruction address and pending if-jumps. -/
def blockShape (b : Block) : Word × Nat × List Nat :=
  (b.btype, b.last_block_start, b.if_jmps)

theorem pushBreakAt_shape (j : Nat) :
    ∀ (ch : List Block) (i : Nat),
      (pushBreakAt j ch i).map blockShape = ch.map blockShape := by
  intro ch
  induction ch with
  | nil => intro i; rfl
  | cons b rest ih =>
    intro i
    cases i with
    | zero => simp [pushBreakAt, blockShape]
    | succ i' => simp [pushBreakAt, ih i']

theorem lbsPairs_of_shape :
    ∀ ch₁ ch₂ : List Block, ch₁.map blockShape = ch₂.map blockShape →
      lbsPairs ch₁ = lbsPairs ch₂ := by
  intro ch₁
  induction ch₁ with
  | nil =>
    intro ch₂ h
    cases ch₂ with
    | nil => rfl
    | cons b r => simp at h
  | cons b rest ih =>
    intro ch₂ h
    cases ch₂ with
    | nil => simp at h
    | cons b₂ rest₂ =>
      simp only [List.map_cons, List.cons.injEq] at h
      obtain ⟨hb, hr⟩ := h
      cases rest with
      | nil =>
        cases rest₂ with
        | nil => rfl
        | cons p₂ r₂ => simp at hr
      | cons p r =>
        cases rest₂ with
        | nil => simp at hr
        | cons p₂ r₂ =>
          have hbt : b.btype = b₂.btype := congrArg Prod.fst hb
          have hp : blockShape p = blockShape p₂ := by
            simp only [List.map_cons, List.cons.injEq] at hr
            exact hr.1
          have hlbs : p.last_block_start = p₂.last_block_start :=
            congrArg (fun q => q.2.1) hp
          show (b.btype, p.last_block_start) :: lbsPairs (p :: r) =
            (b₂.btype, p₂.last_block_start) :: lbsPairs (p₂ :: r₂)
          rw [hbt, hlbs, ih (p₂ :: r₂) hr]

theorem liveIfAux_of_shape :
    ∀ (c₁ c₂ : Block) (ch₁ ch₂ : List Block),
      blockShape c₁ = blockShape c₂ →
      ch₁.map blockShape = ch₂.map blockShape →
      liveIfAux c₁ ch₁ = liveIfAux c₂ ch₂ := by
  intro c₁ c₂ ch₁
  induction ch₁ generalizing c₁ c₂ with
  | nil =>
    intro ch₂ _ h
    cases ch₂ with
    | nil => rfl
    | cons b r => simp at h
  | cons b rest ih =>
    intro ch₂ hc h
    cases ch₂ with
    | nil => simp at h
    | cons b₂ rest₂ =>
      simp only [List.map_cons, List.cons.injEq] at h
      obtain ⟨hb, hr⟩ := h
      have hct : c₁.btype = c₂.btype := congrArg Prod.fst hc
      have hbi : b.if_jmps = b₂.if_jmps := congrArg (fun q => q.2.2) hb
      show (if c₁.btype = Word.ElsIf ∨ c₁.btype = Word.Else then b.if_jmps else []) ++
          liveIfAux b rest = _
      rw [hct, hbi, ih b b₂ rest₂ hb hr]
      rfl

theorem liveIfJmps_of_shape (c0 : Bool) :
    ∀ ch₁ ch₂ : List Block, ch₁.map blockShape = ch₂.map blockShape →
      liveIfJmps ch₁ c0 = liveIfJmps ch₂ c0 := by
  intro ch₁ ch₂ h
  cases ch₁ with
  | nil =>
    cases ch₂ with
    | nil => rfl
    | cons b r => simp at h
  | cons b rest =>
    cases ch₂ with
    | nil => simp at h
    | cons b₂ rest₂ =>
      simp only [List.map_cons, List.cons.injEq] at h
      obtain ⟨hb, hr⟩ := h
      have hbi : b.if_jmps = b₂.if_jmps := congrArg (fun q => q.2.2) hb
      show (if c0 then b.if_jmps else []) ++ liveIfAux b rest = _
      rw [hbi, liveIfAux_of_shape b b₂ rest rest₂ hb hr]
      rfl

theorem chainTypesOk_of_shape :
    ∀ ch₁ ch₂ : List Block, ch₁.map blockShape = ch₂.map blockShape →
      (chainTypesOk ch₁ ↔ chainTypesOk ch₂) := by
  intro ch₁
  induction ch₁ with
  | nil =>
    intro ch₂ h
    cases ch₂ with
    | nil => exact Iff.rfl
    | cons b r => simp at h
  | cons b rest ih =>
    intro ch₂ h
    cases ch₂ with
    | nil => simp at h
    | cons b₂ rest₂ =>
      simp only [List.map_cons, List.cons.injEq] at h
      obtain ⟨hb, hr⟩ := h
      have hbt : b.btype = b₂.btype := congrArg Prod.fst hb
      cases rest with
      | nil =>
        cases rest₂ with
        | nil =>
          show b.btype = Word.Not ↔ b₂.btype = Word.Not
          rw [hbt]
        | cons p₂ r₂ => simp at hr
      | cons p r =>
        cases rest₂ with
        | nil => simp at hr
        | cons p₂ r₂ =>
          show (_ ∧ chainTypesOk (p :: r)) ↔ (_ ∧ chainTypesOk (p₂ :: r₂))
          rw [hbt, ih (p₂ :: r₂) hr]

theorem fepBreakJmps_pushBreakAt_sub (j : Nat) :
    ∀ (ch : List Block) (i : Nat) (p : Nat),
      p ∈ fepBreakJmps ch → p ∈ fepBreakJmps (pushBreakAt j ch i) := by
  intro ch
  induction ch with
  | nil => intro i p hp; exact hp
  | cons b rest ih =>
    intro i p hp
    simp only [fepBreakJmps, List.mem_append] at hp
    cases i with
    | zero =>
      show p ∈ fepBreakJmps ({ b with break_jmps := b.break_jmps ++ [j] } :: rest)
      simp only [fepBreakJmps, List.mem_append]
      rcases hp with hp | hp
      · left
        by_cases hb : b.btype = Word.ForEveryPart
        · simp only [if_pos hb] at hp ⊢
          exact List.mem_append_left _ hp
        · simp only [if_neg hb] at hp
          exact absurd hp (List.not_mem_nil p)
      · exact Or.inr hp
    | succ i' =>
      show p ∈ fepBreakJmps (b :: pushBreakAt j rest i')
      simp only [fepBreakJmps, List.mem_append]
      rcases hp with hp | hp
      · exact Or.inl hp
      · exact Or.inr (ih i' p hp)

theorem fepTarget_cons (lab : String) (b : Block) (rest : List Block) :
    fepTarget lab (b :: rest) =
      if b.btype = Word.ForEveryPart then
        (if b.label = some lab then some (0, 1)
         else (fepTarget lab rest).map (fun p => (p.1 + 1, p.2 + 1)))
      else (fepTarget lab rest).map (fun p => (p.1 + 1, p.2)) := rfl

theorem fepTarget_mem_pushBreakAt (lab : String) (j : Nat) :
    ∀ (ch : List Block) (i n : Nat),
      fepTarget lab ch = some (i, n) →
      j ∈ fepBreakJmps (pushBreakAt j ch i) := by
  intro ch
  induction ch with
  | nil => intro i n h; exact Option.noConfusion h
  | cons b rest ih =>
    intro i n h
    by_cases hb : b.btype = Word.ForEveryPart
    · by_cases hl : b.label = some lab
      · rw [fepTarget_cons, if_pos hb, if_pos hl] at h
        cases h
        show j ∈ fepBreakJmps ({ b with break_jmps := b.break_jmps ++ [j] } :: rest)
        simp [fepBreakJmps, hb]
      · rw [fepTarget_cons, if_pos hb, if_neg hl] at h
        cases htr : fepTarget lab rest with
        | none => rw [htr] at h; exact Option.noConfusion h
        | some q =>
          rw [htr] at h
          simp only [Option.map_some'] at h
          cases h
          show j ∈ fepBreakJmps (b :: pushBreakAt j rest q.1)
          simp only [fepBreakJmps, List.mem_append]
          exact Or.inr (ih q.1 q.2 (by rw [htr]))
    · rw [fepTarget_cons, if_neg hb] at h
      cases htr : fepTarget lab rest with
      | none => rw [htr] at h; exact Option.noConfusion h
      | some q =>
        rw [htr] at h
        simp only [Option.map_some'] at h
        cases h
        show j ∈ fepBreakJmps (b :: pushBreakAt j rest q.1)
        simp only [fepBreakJmps, List.mem_append]
        exact Or.inr (ih q.1 q.2 (by rw [htr]))

theorem fepIdx_mem_pushBreakAt (j : Nat) :
    ∀ (ch : List Block) (i : Nat),
      fepIdx ch = some i → j ∈ fepBreakJmps (pushBreakAt j ch i) := by
  intro ch
  induction ch with
  | nil => intro i h; exact Option.noConfusion h
  | cons b rest ih =>
    intro i h
    rw [fepIdx_cons] at h
    by_cases hb : b.btype = Word.ForEveryPart
    · rw [if_pos hb] at h
      cases h
      show j ∈ fepBreakJmps ({ b with break_jmps := b.break_jmps ++ [j] } :: rest)
      simp [fepBreakJmps, hb]
    · rw [if_neg hb] at h
      cases htr : fepIdx rest with
      | none => rw [htr] at h; exact Option.noConfusion h
      | some i' =>
        rw [htr] at h
        simp only [Option.map_some'] at h
        cases h
        show j ∈ fepBreakJmps (b :: pushBreakAt j rest i')
        simp only [fepBreakJmps, List.mem_append]
        exact Or.inr (ih i' htr)

theorem openBlock_ok {s : CompilerState} {nb : Block} {co : TokInfo}
    {s2 : CompilerState} (h : openBlock s nb co = .ok s2) :
    s2 = { s with
           block_stack :=
             { s.block with last_block_start := s.instructions.length - 1 } ::
               s.block_stack
           block := { nb with line_num := co.line_num, line_pos := co.line_pos } } := by
  unfold openBlock at h
  split at h
  · split at h
    · cases h
      rfl
    · exact Except.noConfusion h
  · exact Except.noConfusion h

theorem pair_getElem? {x y i : Instruction} {k : Nat} (h : [x, y][k]? = some i) :
    (k = 0 ∧ i = x) ∨ (k = 1 ∧ i = y) := by
  cases k with
  | zero =>
    simp only [List.getElem?_cons_zero, Option.some.injEq] at h
    exact Or.inl ⟨rfl, h.symm⟩
  | succ k' =>
    cases k' with
    | zero =>
      simp only [List.getElem?_cons_succ, List.getElem?_cons_zero,
        Option.some.injEq] at h
      exact Or.inr ⟨rfl, h.symm⟩
    | succ k'' => simp at h

theorem lbsPairs_cons₂ (c p : Block) (rest : List Block) :
    lbsPairs (c :: p :: rest) =
      (c.btype, p.last_block_start) :: lbsPairs (p :: rest) := rfl

theorem fepBreakJmps_cons (b : Block) (rest : List Block) :
    fepBreakJmps (b :: rest) =
      (if b.btype = Word.ForEveryPart then b.break_jmps else []) ++
        fepBreakJmps rest := rfl

theorem liveIfJmps_cons (b : Block) (rest : List Block) (c0 : Bool) :
    liveIfJmps (b :: rest) c0 =
      (if c0 then b.if_jmps else []) ++ liveIfAux b rest := rfl

theorem liveIfAux_cons (child b : Block) (rest : List Block) :
    liveIfAux child (b :: rest) =
      (if child.btype = Word.ElsIf ∨ child.btype = Word.Else then b.if_jmps
       else []) ++ liveIfAux b rest := rfl

theorem chainTypesOk_cons₂ (b p : Block) (rest : List Block) :
    chainTypesOk (b :: p :: rest) ↔
      (b.btype = Word.If ∨ b.btype = Word.ElsIf ∨ b.btype = Word.Else ∨
        b.btype = Word.ForEveryPart) ∧ chainTypesOk (p :: rest) := Iff.rfl

/-- Invariant preservation for opening an `if` or `elsif` block: the emitted
`Test; Jz sentinel` pair is recorded as the controlling instruction of the
new block via the parent's `last_block_start`. -/
theorem invP_push_ifelsif
    (instrs : List Instruction) (tid : Nat) (w : Word) (c0old c0' : Bool)
    (bold bold' bnew : Block) (rest : List Block)
    (hinv : InvP instrs (bold :: rest) c0old)
    (hw : w = Word.If ∨ w = Word.ElsIf)
    (hnbt : bnew.btype = w)
    (hbt : bold'.btype = bold.btype) (hbk : bold'.break_jmps = bold.break_jmps)
    (hlbs : bold'.last_block_start = instrs.length + 1)
    (hifok : bold'.if_jmps = bold.if_jmps ∨ c0old = false)
    (hwc : c0old = true → w = Word.ElsIf) :
    InvP (instrs ++ [.Test tid, .Jz usizeMax]) (bnew :: bold' :: rest) c0' := by
  have hnotfep : ¬ bnew.btype = Word.ForEveryPart := by
    rw [hnbt]; rcases hw with rfl | rfl <;> decide
  have hnotelse : bnew.btype = Word.ElsIf ∨ bnew.btype = Word.Else ↔ w = Word.ElsIf := by
    rw [hnbt]
    rcases hw with rfl | rfl <;> simp
  refine ⟨?_, ?_, ?_, ?_, ?_, ?_, ?_⟩
  · intro p i a hp ha
    rcases getElem?_append_cases hp with hold | ⟨k, hpk, hk⟩
    · rcases hinv.targsLe p i a hold ha with hm | hle
      · exact Or.inl hm
      · right; simp; omega
    · rcases pair_getElem? hk with ⟨-, rfl⟩ | ⟨-, rfl⟩
      · exact Option.noConfusion ha
      · simp only [jumpTarget, Option.some.injEq] at ha
        exact Or.inl ha.symm
  · intro p a hp
    rcases getElem?_append_cases hp with hold | ⟨k, _, hk⟩
    · exact hinv.noJnz p a hold
    · rcases pair_getElem? hk with ⟨-, h⟩ | ⟨-, h⟩ <;> exact Instruction.noConfusion h
  · intro p hp
    rcases getElem?_append_cases hp with hold | ⟨k, hpk, hk⟩
    · rcases hinv.jzT p hold with hh | hlen
      · left
        rw [lbsPairs_cons₂]
        rcases hh with h | h
        · exact Or.inl (List.mem_cons_of_mem _
            (by rw [lbsPairs_head_congr bold bold' rest hbt]; exact h))
        · exact Or.inr (List.mem_cons_of_mem _
            (by rw [lbsPairs_head_congr bold bold' rest hbt]; exact h))
      · exact Or.inr (le_trans hlen (by simp))
    · rcases pair_getElem? hk with ⟨-, h⟩ | ⟨hk1, -⟩
      · exact Instruction.noConfusion h
      · subst hk1
        left
        rw [lbsPairs_cons₂, hnbt, hlbs]
        rcases hw with rfl | rfl
        · exact Or.inl (by rw [hpk]; exact List.mem_cons_self _ _)
        · exact Or.inr (by rw [hpk]; exact List.mem_cons_self _ _)
  · intro p hp
    rcases getElem?_append_cases hp with hold | ⟨k, hpk, hk⟩
    · rcases hinv.fepT p hold with hmem | hlen
      · left
        rw [lbsPairs_cons₂]
        exact List.mem_cons_of_mem _
          (by rw [lbsPairs_head_congr bold bold' rest hbt]; exact hmem)
      · exact Or.inr (le_trans hlen (by simp))
    · rcases pair_getElem? hk with ⟨-, h⟩ | ⟨-, h⟩ <;> exact Instruction.noConfusion h
  · intro p hp
    rcases getElem?_append_cases hp with hold | ⟨k, hpk, hk⟩
    · rcases hinv.jmpT p hold with hh | hlen
      · left
        rcases hh with h | h
        · left
          rw [fepBreakJmps_cons, if_neg hnotfep, List.nil_append,
              fepBreakJmps_head_congr bold bold' rest hbt hbk]
          exact h
        · right
          rw [liveIfJmps_cons, liveIfAux_cons]
          rcases Bool.eq_false_or_eq_true c0old with hc0 | hc0
          · have hwe := hwc hc0
            rw [hc0] at h
            rw [liveIfJmps_cons, if_pos rfl] at h
            rcases List.mem_append.mp h with hhead | haux
            · have hifeq : bold'.if_jmps = bold.if_jmps := by
                rcases hifok with he | hfalse
                · exact he
                · rw [hc0] at hfalse; exact Bool.noConfusion hfalse
              have hee : bnew.btype = Word.ElsIf ∨ bnew.btype = Word.Else :=
                hnotelse.mpr hwe
              simp only [List.mem_append, if_pos hee, hifeq]
              exact Or.inr (Or.inl hhead)
            · have hax : p ∈ liveIfAux bold' rest := by
                rw [liveIfAux_congr bold bold' hbt]
                exact haux
              simp only [List.mem_append]
              exact Or.inr (Or.inr hax)
          · rw [hc0] at h
            rw [liveIfJmps_cons, if_neg Bool.false_ne_true, List.nil_append] at h
            have hax : p ∈ liveIfAux bold' rest := by
              rw [liveIfAux_congr bold bold' hbt]
              exact h
            simp only [List.mem_append]
            exact Or.inr (Or.inr hax)
      · exact Or.inr (le_trans hlen (by simp))
    · rcases pair_getElem? hk with ⟨-, h⟩ | ⟨-, h⟩ <;> exact Instruction.noConfusion h
  · intro q hq hfep
    rw [lbsPairs_cons₂] at hq
    rcases List.mem_cons.mp hq with rfl | hmem
    · exact absurd hfep hnotfep
    · have := hinv.fepLbs q
        (by rw [← lbsPairs_head_congr bold bold' rest hbt]; exact hmem) hfep
      simp
      omega
  · refine (chainTypesOk_cons₂ bnew bold' rest).mpr ⟨?_, ?_⟩
    · rw [hnbt]
      rcases hw with rfl | rfl
      · exact Or.inl rfl
      · exact Or.inr (Or.inl rfl)
    · exact (chainTypesOk_head_congr bold bold' rest hbt).mpr hinv.types

/-- Invariant preservation for opening a `foreverypart` block: the emitted
`ForEveryPartPush; ForEveryPart sentinel` pair is recorded via the parent's
`last_block_start`. -/
theorem invP_push_fep
    (instrs : List Instruction) (c0' : Bool)
    (bold bold' bnew : Block) (rest : List Block)
    (hinv : InvP instrs (bold :: rest) false)
    (hnbt : bnew.btype = Word.ForEveryPart)
    (hnbk : bnew.break_jmps = [])
    (hbt : bold'.btype = bold.btype) (hbk : bold'.break_jmps = bold.break_jmps)
    (hlbs : bold'.last_block_start = instrs.length + 1) :
    InvP (instrs ++ [.ForEveryPartPush, .ForEveryPart usizeMax])
      (bnew :: bold' :: rest) c0' := by
  have hnotelse : ¬ (bnew.btype = Word.ElsIf ∨ bnew.btype = Word.Else) := by
    rw [hnbt]; decide
  refine ⟨?_, ?_, ?_, ?_, ?_, ?_, ?_⟩
  · intro p i a hp ha
    rcases getElem?_append_cases hp with hold | ⟨k, hpk, hk⟩
    · rcases hinv.targsLe p i a hold ha with hm | hle
      · exact Or.inl hm
      · right; simp; omega
    · rcases pair_getElem? hk with ⟨-, rfl⟩ | ⟨-, rfl⟩
      · exact Option.noConfusion ha
      · simp only [jumpTarget, Option.some.injEq] at ha
        exact Or.inl ha.symm
  · intro p a hp
    rcases getElem?_append_cases hp with hold | ⟨k, _, hk⟩
    · exact hinv.noJnz p a hold
    · rcases pair_getElem? hk with ⟨-, h⟩ | ⟨-, h⟩ <;> exact Instruction.noConfusion h
  · intro p hp
    rcases getElem?_append_cases hp with hold | ⟨k, hpk, hk⟩
    · rcases hinv.jzT p hold with hh | hlen
      · left
        rw [lbsPairs_cons₂]
        rcases hh with h | h
        · exact Or.inl (List.mem_cons_of_mem _
            (by rw [lbsPairs_head_congr bold bold' rest hbt]; exact h))
        · exact Or.inr (List.mem_cons_of_mem _
            (by rw [lbsPairs_head_congr bold bold' rest hbt]; exact h))
      · exact Or.inr (le_trans hlen (by simp))
    · rcases pair_getElem? hk with ⟨-, h⟩ | ⟨-, h⟩ <;> exact Instruction.noConfusion h
  · intro p hp
    rcases getElem?_append_cases hp with hold | ⟨k, hpk, hk⟩
    · rcases hinv.fepT p hold with hmem | hlen
      · left
        rw [lbsPairs_cons₂]
        exact List.mem_cons_of_mem _
          (by rw [lbsPairs_head_congr bold bold' rest hbt]; exact hmem)
      · exact Or.inr (le_trans hlen (by simp))
    · rcases pair_getElem? hk with ⟨-, h⟩ | ⟨hk1, -⟩
      · exact Instruction.noConfusion h
      · subst hk1
        left
        rw [lbsPairs_cons₂, hnbt, hlbs, hpk]
        exact List.mem_cons_self _ _
  · intro p hp
    rcases getElem?_append_cases hp with hold | ⟨k, hpk, hk⟩
    · rcases hinv.jmpT p hold with hh | hlen
      · left
        rcases hh with h | h
        · left
          rw [fepBreakJmps_cons, if_pos hnbt, hnbk, List.nil_append,
              fepBreakJmps_head_congr bold bold' rest hbt hbk]
          exact h
        · right
          rw [liveIfJmps_cons, liveIfAux_cons, if_neg hnotelse, List.nil_append]
          rw [liveIfJmps_cons, if_neg Bool.false_ne_true, List.nil_append] at h
          have hax : p ∈ liveIfAux bold' rest := by
            rw [liveIfAux_congr bold bold' hbt]
            exact h
          simp only [List.mem_append]
          exact Or.inr hax
      · exact Or.inr (le_trans hlen (by simp))
    · rcases pair_getElem? hk with ⟨-, h⟩ | ⟨-, h⟩ <;> exact Instruction.noConfusion h
  · intro q hq hfep
    rw [lbsPairs_cons₂] at hq
    rcases List.mem_cons.mp hq with rfl | hmem
    · rw [hlbs]
      simp
    · have := hinv.fepLbs q
        (by rw [← lbsPairs_head_congr bold bold' rest hbt]; exact hmem) hfep
      simp
      omega
  · refine (chainTypesOk_cons₂ bnew bold' rest).mpr ⟨?_, ?_⟩
    · rw [hnbt]
      exact Or.inr (Or.inr (Or.inr rfl))
    · exact (chainTypesOk_head_congr bold bold' rest hbt).mpr hinv.types

/-- Invariant preservation for opening an `else` block: no instruction is
emitted, and the parent's pending `if_jmps` stay live through the open
`else` child. -/
theorem invP_push_else
    (instrs : List Instruction) (c0' : Bool)
    (bold bold' bnew : Block) (rest : List Block)
    (hinv : InvP instrs (bold :: rest) true)
    (hnbt : bnew.btype = Word.Else)
    (hbt : bold'.btype = bold.btype) (hbk : bold'.break_jmps = bold.break_jmps)
    (hif : bold'.if_jmps = bold.if_jmps) :
    InvP instrs (bnew :: bold' :: rest) c0' := by
  have hnotfep : ¬ bnew.btype = Word.ForEveryPart := by
    rw [hnbt]; decide
  have helse : bnew.btype = Word.ElsIf ∨ bnew.btype = Word.Else := by
    rw [hnbt]; exact Or.inr rfl
  refine ⟨hinv.targsLe, hinv.noJnz, ?_, ?_, ?_, ?_, ?_⟩
  · intro p hp
    rcases hinv.jzT p hp with hh | hlen
    · left
      rw [lbsPairs_cons₂]
      rcases hh with h | h
      · exact Or.inl (List.mem_cons_of_mem _
          (by rw [lbsPairs_head_congr bold bold' rest hbt]; exact h))
      · exact Or.inr (List.mem_cons_of_mem _
          (by rw [lbsPairs_head_congr bold bold' rest hbt]; exact h))
    · exact Or.inr hlen
  · intro p hp
    rcases hinv.fepT p hp with hmem | hlen
    · left
      rw [lbsPairs_cons₂]
      exact List.mem_cons_of_mem _
        (by rw [lbsPairs_head_congr bold bold' rest hbt]; exact hmem)
    · exact Or.inr hlen
  · intro p hp
    rcases hinv.jmpT p hp with hh | hlen
    · left
      rcases hh with h | h
      · left
        rw [fepBreakJmps_cons, if_neg hnotfep, List.nil_append,
            fepBreakJmps_head_congr bold bold' rest hbt hbk]
        exact h
      · right
        rw [liveIfJmps_cons, liveIfAux_cons, if_pos helse, hif]
        rw [liveIfJmps_cons, if_pos rfl] at h
        rcases List.mem_append.mp h with hhead | haux
        · simp only [List.mem_append]
          exact Or.inr (Or.inl hhead)
        · have hax : p ∈ liveIfAux bold' rest := by
            rw [liveIfAux_congr bold bold' hbt]
            exact haux
          simp only [List.mem_append]
          exact Or.inr (Or.inr hax)
    · exact Or.inr hlen
  · intro q hq hfep
    rw [lbsPairs_cons₂] at hq
    rcases List.mem_cons.mp hq with rfl | hmem
    · exact absurd hfep hnotfep
    · exact hinv.fepLbs q
        (by rw [← lbsPairs_head_congr bold bold' rest hbt]; exact hmem) hfep
  · refine (chainTypesOk_cons₂ bnew bold' rest).mpr ⟨?_, ?_⟩
    · rw [hnbt]
      exact Or.inr (Or.inr (Or.inl rfl))
    · exact (chainTypesOk_head_congr bold bold' rest hbt).mpr hinv.types

/-- Invariant preservation for the instruction pair emitted by `break` with
the jump position recorded in an open `foreverypart` block. -/
theorem invP_break (s : CompilerState) (c0' : Bool) (popn i : Nat)
    (hinv : InvP s.instructions (chain s) false)
    (hmem : s.instructions.length + 1 ∈
      fepBreakJmps (pushBreakAt (s.instructions.length + 1) (chain s) i)) :
    InvP (s.instructions ++ [.ForEveryPartPop popn, .Jmp usizeMax])
      (pushBreakAt (s.instructions.length + 1) (chain s) i) c0' := by
  have hshape := pushBreakAt_shape (s.instructions.length + 1) (chain s) i
  refine ⟨?_, ?_, ?_, ?_, ?_, ?_, ?_⟩
  · intro p instr a hp ha
    rcases getElem?_append_cases hp with hold | ⟨k, hpk, hk⟩
    · rcases hinv.targsLe p instr a hold ha with hm | hle
      · exact Or.inl hm
      · right; simp; omega
    · rcases pair_getElem? hk with ⟨-, rfl⟩ | ⟨-, rfl⟩
      · exact Option.noConfusion ha
      · simp only [jumpTarget, Option.some.injEq] at ha
        exact Or.inl ha.symm
  · intro p a hp
    rcases getElem?_append_cases hp with hold | ⟨k, _, hk⟩
    · exact hinv.noJnz p a hold
    · rcases pair_getElem? hk with ⟨-, h⟩ | ⟨-, h⟩ <;> exact Instruction.noConfusion h
  · intro p hp
    rw [lbsPairs_of_shape _ _ hshape]
    rcases getElem?_append_cases hp with hold | ⟨k, _, hk⟩
    · exact (hinv.jzT p hold).imp id (fun hlen => le_trans hlen (by simp))
    · rcases pair_getElem? hk with ⟨-, h⟩ | ⟨-, h⟩ <;> exact Instruction.noConfusion h
  · intro p hp
    rw [lbsPairs_of_shape _ _ hshape]
    rcases getElem?_append_cases hp with hold | ⟨k, _, hk⟩
    · exact (hinv.fepT p hold).imp id (fun hlen => le_trans hlen (by simp))
    · rcases pair_getElem? hk with ⟨-, h⟩ | ⟨-, h⟩ <;> exact Instruction.noConfusion h
  · intro p hp
    rcases getElem?_append_cases hp with hold | ⟨k, hpk, hk⟩
    · rcases hinv.jmpT p hold with hh | hlen
      · left
        rcases hh with h | h
        · exact Or.inl (fepBreakJmps_pushBreakAt_sub _ (chain s) i p h)
        · right
          rw [liveIfJmps_of_shape c0' _ _ hshape]
          exact liveIfJmps_false_sub (chain s) c0' p h
      · exact Or.inr (le_trans hlen (by simp))
    · rcases pair_getElem? hk with ⟨-, h⟩ | ⟨hk1, -⟩
      · exact Instruction.noConfusion h
      · subst hk1
        rw [hpk]
        exact Or.inl (Or.inl hmem)
  · intro q hq hfep
    rw [lbsPairs_of_shape _ _ hshape] at hq
    have := hinv.fepLbs q hq hfep
    simp
    omega
  · exact (chainTypesOk_of_shape _ _ hshape).mpr hinv.types

theorem stepBreakLabelled_ok_spec {s s' : CompilerState} {lab : String}
    {tl tp : Nat} (h : stepBreakLabelled s lab tl tp = .ok s') :
    ∃ i n, fepTarget lab (chain s) = some (i, n) ∧
      s'.instructions = s.instructions ++ [.ForEveryPartPop n, .Jmp usizeMax] ∧
      chain s' = pushBreakAt (s.instructions.length + 1) (chain s) i := by
  unfold stepBreakLabelled at h
  rw [scanBreakLabel_eq] at h
  cases htgt : fepTarget lab (s.block :: s.block_stack) with
  | none =>
    rw [htgt] at h
    exact Except.noConfusion h
  | some q =>
    obtain ⟨b', stk', hps⟩ :=
      pushBreakAt_cons_ne_nil (s.instructions.length + 1) s.block s.block_stack q.1
    rw [htgt, show Option.map
          (fun p => (0 + p.2,
            pushBreakAt (s.instructions.length + 1) (s.block :: s.block_stack) p.1))
          (some q) =
        some (0 + q.2,
          pushBreakAt (s.instructions.length + 1) (s.block :: s.block_stack) q.1)
        from rfl, hps, Nat.zero_add] at h
    cases h
    exact ⟨q.1, q.2, htgt, rfl, hps.symm⟩

theorem stepBreakPlain_ok_spec {s s' : CompilerState} {ln lp : Nat}
    (h : stepBreakPlain s ln lp = .ok s') :
    ∃ i, fepIdx (chain s) = some i ∧
      s'.instructions = s.instructions ++ [.ForEveryPartPop 1, .Jmp usizeMax] ∧
      chain s' = pushBreakAt (s.instructions.length + 1) (chain s) i := by
  unfold stepBreakPlain at h
  by_cases hcur : s.block.btype = Word.ForEveryPart
  · rw [if_pos hcur] at h
    cases h
    refine ⟨0, by rw [show chain s = s.block :: s.block_stack from rfl,
      fepIdx_cons, if_pos hcur], by simp, ?_⟩
    show _ = pushBreakAt (s.instructions.length + 1) (s.block :: s.block_stack) 0
    have hlen : (s.instructions ++ [Instruction.ForEveryPartPop 1]).length =
        s.instructions.length + 1 := by simp
    simp only [pushBreakAt, chain, hlen]
  · rw [if_neg hcur, addBreakJmp_eq] at h
    cases hfs : fepIdx s.block_stack with
    | none =>
      rw [hfs] at h
      exact Except.noConfusion h
    | some i' =>
      rw [hfs, show Option.map
            (fun i => pushBreakAt (s.instructions ++ [Instruction.ForEveryPartPop 1]).length
              s.block_stack i) (some i') =
          some (pushBreakAt (s.instructions ++ [Instruction.ForEveryPartPop 1]).length
            s.block_stack i') from rfl] at h
      cases h
      refine ⟨i' + 1, by rw [show chain s = s.block :: s.block_stack from rfl,
        fepIdx_cons, if_neg hcur, hfs]; rfl, by simp, ?_⟩
      show _ = pushBreakAt (s.instructions.length + 1) (s.block :: s.block_stack) (i' + 1)
      have hlen : (s.instructions ++ [Instruction.ForEveryPartPop 1]).length =
          s.instructions.length + 1 := by simp
      simp only [pushBreakAt, chain, hlen]

theorem invP_breakLabelled (s s' : CompilerState) (lab : String) (tl tp : Nat)
    (c0' : Bool)
    (hinv : InvP s.instructions (chain s) false)
    (hok : stepBreakLabelled s lab tl tp = .ok s') :
    InvP s'.instructions (chain s') c0' := by
  obtain ⟨i, n, htgt, hins, hch⟩ := stepBreakLabelled_ok_spec hok
  rw [hins, hch]
  exact invP_break s c0' n i hinv
    (fepTarget_mem_pushBreakAt lab _ (chain s) i n htgt)

theorem invP_breakPlain (s s' : CompilerState) (ln lp : Nat) (c0' : Bool)
    (hinv : InvP s.instructions (chain s) false)
    (hok : stepBreakPlain s ln lp = .ok s') :
    InvP s'.instructions (chain s') c0' := by
  obtain ⟨i, hidx, hins, hch⟩ := stepBreakPlain_ok_spec hok
  rw [hins, hch]
  exact invP_break s c0' 1 i hinv (fepIdx_mem_pushBreakAt _ (chain s) i hidx)

theorem patchJmp_cases {l : List Instruction} {q t p : Nat} {i : Instruction}
    (h : (patchJmp l q t)[p]? = some i) :
    l[p]? = some i ∨ (i = .Jmp t ∧ ∃ a, l[p]? = some (.Jmp a)) := by
  revert h
  unfold patchJmp
  cases hq : l[q]? with
  | none => exact fun h => Or.inl h
  | some j =>
    cases j with
    | Jmp a =>
      intro h
      by_cases hpq : p = q
      · subst hpq
        rw [List.getElem?_set_eq_of_lt _ (getElem?_some_lt hq)] at h
        cases h
        exact Or.inr ⟨rfl, a, hq⟩
      · rw [List.getElem?_set_ne (fun he => hpq he.symm)] at h
        exact Or.inl h
    | Jz a => exact fun h => Or.inl h
    | Jnz a => exact fun h => Or.inl h
    | ForEveryPart a => exact fun h => Or.inl h
    | Require c => exact fun h => Or.inl h
    | Discard => exact fun h => Or.inl h
    | Stop => exact fun h => Or.inl h
    | Invalid n a b => exact fun h => Or.inl h
    | Test n => exact fun h => Or.inl h
    | ForEveryPartPush => exact fun h => Or.inl h
    | ForEveryPartPop n => exact fun h => Or.inl h
    | Clear a b c => exact fun h => Or.inl h
    | Return => exact fun h => Or.inl h

theorem patchJmps_cases {poss : List Nat} {l : List Instruction} {t p : Nat}
    {i : Instruction} (h : (patchJmps l poss t)[p]? = some i) :
    l[p]? = some i ∨ (i = .Jmp t ∧ ∃ a, l[p]? = some (.Jmp a)) := by
  induction poss generalizing l with
  | nil => exact Or.inl h
  | cons q rest ih =>
    rcases ih h with h1 | ⟨hi, a, h1⟩
    · rcases patchJmp_cases h1 with h2 | ⟨hi, a, h2⟩
      · exact Or.inl h2
      · exact Or.inr ⟨hi, a, h2⟩
    · rcases patchJmp_cases h1 with h2 | ⟨-, a', h2⟩
      · exact Or.inr ⟨hi, a, h2⟩
      · exact Or.inr ⟨hi, a', h2⟩

theorem patchJz_cases {l : List Instruction} {q t p : Nat} {i : Instruction}
    (h : (patchJz l q t)[p]? = some i) :
    l[p]? = some i ∨ (i = .Jz t ∧ ∃ a, l[p]? = some (.Jz a)) := by
  revert h
  unfold patchJz
  cases hq : l[q]? with
  | none => exact fun h => Or.inl h
  | some j =>
    cases j with
    | Jz a =>
      intro h
      by_cases hpq : p = q
      · subst hpq
        rw [List.getElem?_set_eq_of_lt _ (getElem?_some_lt hq)] at h
        cases h
        exact Or.inr ⟨rfl, a, hq⟩
      · rw [List.getElem?_set_ne (fun he => hpq he.symm)] at h
        exact Or.inl h
    | Jmp a => exact fun h => Or.inl h
    | Jnz a => exact fun h => Or.inl h
    | ForEveryPart a => exact fun h => Or.inl h
    | Require c => exact fun h => Or.inl h
    | Discard => exact fun h => Or.inl h
    | Stop => exact fun h => Or.inl h
    | Invalid n a b => exact fun h => Or.inl h
    | Test n => exact fun h => Or.inl h
    | ForEveryPartPush => exact fun h => Or.inl h
    | ForEveryPartPop n => exact fun h => Or.inl h
    | Clear a b c => exact fun h => Or.inl h
    | Return => exact fun h => Or.inl h

theorem patchFep_cases {l : List Instruction} {q t p : Nat} {i : Instruction}
    (h : (patchFep l q t)[p]? = some i) :
    l[p]? = some i ∨ (i = .ForEveryPart t ∧ ∃ a, l[p]? = some (.ForEveryPart a)) := by
  revert h
  unfold patchFep
  cases hq : l[q]? with
  | none => exact fun h => Or.inl h
  | some j =>
    cases j with
    | ForEveryPart a =>
      intro h
      by_cases hpq : p = q
      · subst hpq
        rw [List.getElem?_set_eq_of_lt _ (getElem?_some_lt hq)] at h
        cases h
        exact Or.inr ⟨rfl, a, hq⟩
      · rw [List.getElem?_set_ne (fun he => hpq he.symm)] at h
        exact Or.inl h
    | Jmp a => exact fun h => Or.inl h
    | Jz a => exact fun h => Or.inl h
    | Jnz a => exact fun h => Or.inl h
    | Require c => exact fun h => Or.inl h
    | Discard => exact fun h => Or.inl h
    | Stop => exact fun h => Or.inl h
    | Invalid n a b => exact fun h => Or.inl h
    | Test n => exact fun h => Or.inl h
    | ForEveryPartPush => exact fun h => Or.inl h
    | ForEveryPartPop n => exact fun h => Or.inl h
    | Clear a b c => exact fun h => Or.inl h
    | Return => exact fun h => Or.inl h

theorem patchJz_at_jz {l : List Instruction} {q a : Nat} (t : Nat)
    (h : l[q]? = some (.Jz a)) : (patchJz l q t)[q]? = some (.Jz t) := by
  unfold patchJz
  rw [h]
  exact List.getElem?_set_eq_of_lt _ (getElem?_some_lt h)

theorem patchFep_at_fep {l : List Instruction} {q a : Nat} (t : Nat)
    (h : l[q]? = some (.ForEveryPart a)) :
    (patchFep l q t)[q]? = some (.ForEveryPart t) := by
  unfold patchFep
  rw [h]
  exact List.getElem?_set_eq_of_lt _ (getElem?_some_lt h)

theorem patchJz_not_jz {l : List Instruction} {p : Nat} {i : Instruction}
    (t : Nat) (h : l[p]? = some i) (hi : ∀ b, i ≠ .Jz b) :
    patchJz l p t = l := by
  unfold patchJz
  rw [h]
  cases i <;> first
    | rfl
    | exact absurd rfl (hi _)

theorem single_getElem? {x i : Instruction} {k : Nat} (h : [x][k]? = some i) :
    k = 0 ∧ i = x := by
  cases k with
  | zero =>
    simp only [List.getElem?_cons_zero, Option.some.injEq] at h
    exact ⟨rfl, h.symm⟩
  | succ k' => simp at h

theorem patchJz_at_jmp {l : List Instruction} {p a : Nat} (q t : Nat)
    (h : l[p]? = some (.Jmp a)) : (patchJz l q t)[p]? = some (.Jmp a) := by
  by_cases hpq : p = q
  · subst hpq
    unfold patchJz
    rw [h]
    exact h
  · unfold patchJz
    split
    · rw [List.getElem?_set_ne (fun he => hpq he.symm), h]
    · exact h

/-- Closing a `foreverypart` block preserves the invariant: the appended
back-jump targets the loop head, the sentinel `ForEveryPart` and all break
`Jmp`s recorded in the closed block are patched to the address after the
loop. -/
theorem invP_close_fep_gen (L : List Instruction) (cb prev : Block)
    (stk : List Block) (c0' : Bool) (cur : Nat)
    (hcur : cur = (L ++ [Instruction.Jmp prev.last_block_start]).length)
    (hbt : cb.btype = Word.ForEveryPart)
    (hinvE : InvP L (cb :: prev :: stk) false) :
    InvP
      (patchJmps
        (patchFep (L ++ [Instruction.Jmp prev.last_block_start])
          prev.last_block_start cur)
        cb.break_jmps cur)
      (prev :: stk) c0' := by
  have hlbsprev : prev.last_block_start < L.length :=
    hinvE.fepLbs (cb.btype, prev.last_block_start)
      (by rw [lbsPairs_cons₂]; exact List.mem_cons_self _ _) hbt
  have hcurL : cur = L.length + 1 := by rw [hcur]; simp
  have hMlen :
      (patchJmps
        (patchFep (L ++ [Instruction.Jmp prev.last_block_start])
          prev.last_block_start cur)
        cb.break_jmps cur).length = L.length + 1 := by
    rw [patchJmps_length, patchFep_length]
    simp
  refine ⟨?_, ?_, ?_, ?_, ?_, ?_, ?_⟩
  · intro p i a hp ha
    rcases patchJmps_cases hp with h1 | ⟨rfl, -⟩
    · rcases patchFep_cases h1 with h2 | ⟨rfl, -⟩
      · rcases getElem?_append_cases h2 with hL | ⟨k, hpk, hk⟩
        · rcases hinvE.targsLe p i a hL ha with hm | hle
          · exact Or.inl hm
          · right
            omega
        · obtain ⟨-, rfl⟩ := single_getElem? hk
          simp only [jumpTarget, Option.some.injEq] at ha
          right
          omega
      · simp only [jumpTarget, Option.some.injEq] at ha
        right
        omega
    · simp only [jumpTarget, Option.some.injEq] at ha
      right
      omega
  · intro p a hp
    rcases patchJmps_cases hp with h1 | ⟨hj, -⟩
    · rcases patchFep_cases h1 with h2 | ⟨hf, -⟩
      · rcases getElem?_append_cases h2 with hL | ⟨k, hpk, hk⟩
        · exact hinvE.noJnz p a hL
        · exact Instruction.noConfusion (single_getElem? hk).2
      · exact Instruction.noConfusion hf
    · exact Instruction.noConfusion hj
  · intro p hp
    rcases patchJmps_cases hp with h1 | ⟨hj, -⟩
    · rcases patchFep_cases h1 with h2 | ⟨hf, -⟩
      · rcases getElem?_append_cases h2 with hL | ⟨k, hpk, hk⟩
        · rcases hinvE.jzT p hL with hh | hlen
          · left
            rw [lbsPairs_cons₂] at hh
            rcases hh with h | h
            · rcases List.mem_cons.mp h with he | hm
              · rw [Prod.mk.injEq, hbt] at he
                exact absurd he.1 (by decide)
              · exact Or.inl hm
            · rcases List.mem_cons.mp h with he | hm
              · rw [Prod.mk.injEq, hbt] at he
                exact absurd he.1 (by decide)
              · exact Or.inr hm
          · right
            omega
        · exact Instruction.noConfusion (single_getElem? hk).2
      · exact Instruction.noConfusion hf
    · exact Instruction.noConfusion hj
  · intro p hp
    rcases patchJmps_cases hp with h1 | ⟨hj, -⟩
    · rcases patchFep_cases h1 with h2 | ⟨hf, -⟩
      · rcases getElem?_append_cases h2 with hL | ⟨k, hpk, hk⟩
        · by_cases hpq : p = prev.last_block_start
          · subst hpq
            have hL1 : (L ++ [Instruction.Jmp prev.last_block_start])[prev.last_block_start]? =
                some (Instruction.ForEveryPart usizeMax) := by
              rw [List.getElem?_append_left (getElem?_some_lt hL)]
              exact hL
            have hpt := patchFep_at_fep cur hL1
            have hM2 := patchJmps_not_jmp cur cb.break_jmps _ _ _ hpt
              (fun b hb => Instruction.noConfusion hb)
            have hcm : Instruction.ForEveryPart cur = Instruction.ForEveryPart usizeMax :=
              Option.some.inj (hM2.symm.trans hp)
            have hcmax : cur = usizeMax := by injection hcm
            right
            omega
          · rcases hinvE.fepT p hL with hh | hlen
            · rw [lbsPairs_cons₂] at hh
              rcases List.mem_cons.mp hh with he | hm
              · rw [Prod.mk.injEq] at he
                exact absurd he.2 hpq
              · exact Or.inl hm
            · right
              omega
        · exact Instruction.noConfusion (single_getElem? hk).2
      · have hcmax : usizeMax = cur := by injection hf
        right
        omega
    · exact Instruction.noConfusion hj
  · intro p hp
    rcases patchJmps_cases hp with h1 | ⟨hj, -⟩
    · rcases patchFep_cases h1 with h2 | ⟨hf, -⟩
      · rcases getElem?_append_cases h2 with hL | ⟨k, hpk, hk⟩
        · rcases hinvE.jmpT p hL with hh | hlen
          · rcases hh with hfj | hlj
            · rw [fepBreakJmps_cons, if_pos hbt] at hfj
              rcases List.mem_append.mp hfj with hbj | htail
              · have hL1 : (L ++ [Instruction.Jmp prev.last_block_start])[p]? =
                    some (Instruction.Jmp usizeMax) := by
                  rw [List.getElem?_append_left (getElem?_some_lt hL)]
                  exact hL
                have hp2 := patchFep_at_jmp prev.last_block_start cur hL1
                have hp3 := (patchJmps_at_jmp cur cb.break_jmps _ p usizeMax hp2).1 hbj
                have hcm : Instruction.Jmp cur = Instruction.Jmp usizeMax :=
                  Option.some.inj (hp3.symm.trans hp)
                have hcmax : cur = usizeMax := by injection hcm
                right
                omega
              · exact Or.inl (Or.inl htail)
            · rw [liveIfJmps_cons, if_neg Bool.false_ne_true, List.nil_append,
                  liveIfAux_cons] at hlj
              rw [if_neg (by rw [hbt]; decide), List.nil_append] at hlj
              left
              right
              rw [liveIfJmps_cons]
              exact List.mem_append.mpr (Or.inr hlj)
          · right
            omega
        · obtain ⟨-, hke⟩ := single_getElem? hk
          have hpl : usizeMax = prev.last_block_start := by injection hke
          right
          omega
      · exact Instruction.noConfusion hf
    · have hcmax : usizeMax = cur := by injection hj
      right
      omega
  · intro q hq hfep
    have hq2 : q ∈ lbsPairs (cb :: prev :: stk) := by
      rw [lbsPairs_cons₂]
      exact List.mem_cons_of_mem _ hq
    have hlt := hinvE.fepLbs q hq2 hfep
    omega
  · exact ((chainTypesOk_cons₂ cb prev stk).mp hinvE.types).2

/-- Closing an `if`/`elsif` block followed by `elsif`/`else`: a sentinel
`Jmp` to the end of the conditional is appended and recorded in the parent's
`if_jmps`, and the controlling `Jz` is patched past it; the recorded jumps
stay live while the chain continues (`c0 = true`). -/
theorem invP_close_ifelsif_true_gen (L : List Instruction) (cb prev : Block)
    (stk : List Block) (cur : Nat)
    (hcur : cur = (L ++ [Instruction.Jmp usizeMax]).length)
    (hw : cb.btype = Word.If ∨ cb.btype = Word.ElsIf)
    (hinvE : InvP L (cb :: prev :: stk) false) :
    InvP (patchJz (L ++ [Instruction.Jmp usizeMax]) prev.last_block_start cur)
      ({ prev with if_jmps := prev.if_jmps ++ [L.length] } :: stk) true := by
  have hcurL : cur = L.length + 1 := by rw [hcur]; simp
  have hMlen :
      (patchJz (L ++ [Instruction.Jmp usizeMax]) prev.last_block_start cur).length =
        L.length + 1 := by
    rw [patchJz_length]
    simp
  refine ⟨?_, ?_, ?_, ?_, ?_, ?_, ?_⟩
  · intro p i a hp ha
    rcases patchJz_cases hp with h1 | ⟨rfl, -⟩
    · rcases getElem?_append_cases h1 with hL | ⟨k, hpk, hk⟩
      · rcases hinvE.targsLe p i a hL ha with hm | hle
        · exact Or.inl hm
        · right
          omega
      · obtain ⟨-, rfl⟩ := single_getElem? hk
        simp only [jumpTarget, Option.some.injEq] at ha
        exact Or.inl ha.symm
    · simp only [jumpTarget, Option.some.injEq] at ha
      right
      omega
  · intro p a hp
    rcases patchJz_cases hp with h1 | ⟨hz, -⟩
    · rcases getElem?_append_cases h1 with hL | ⟨k, hpk, hk⟩
      · exact hinvE.noJnz p a hL
      · exact Instruction.noConfusion (single_getElem? hk).2
    · exact Instruction.noConfusion hz
  · intro p hp
    rw [lbsPairs_head_congr prev
      { prev with if_jmps := prev.if_jmps ++ [L.length] } stk rfl]
    rcases patchJz_cases hp with h1 | ⟨hz, -⟩
    · rcases getElem?_append_cases h1 with hL | ⟨k, hpk, hk⟩
      · by_cases hpq : p = prev.last_block_start
        · subst hpq
          have hL1 : (L ++ [Instruction.Jmp usizeMax])[prev.last_block_start]? =
              some (Instruction.Jz usizeMax) := by
            rw [List.getElem?_append_left (getElem?_some_lt hL)]
            exact hL
          have hpt := patchJz_at_jz cur hL1
          have hcm : Instruction.Jz cur = Instruction.Jz usizeMax :=
            Option.some.inj (hpt.symm.trans hp)
          have hcmax : cur = usizeMax := by injection hcm
          right
          omega
        · rcases hinvE.jzT p hL with hh | hlen
          · left
            rw [lbsPairs_cons₂] at hh
            rcases hh with h | h
            · rcases List.mem_cons.mp h with he | hm
              · rw [Prod.mk.injEq] at he
                exact absurd he.2 hpq
              · exact Or.inl hm
            · rcases List.mem_cons.mp h with he | hm
              · rw [Prod.mk.injEq] at he
                exact absurd he.2 hpq
              · exact Or.inr hm
          · right
            omega
      · exact Instruction.noConfusion (single_getElem? hk).2
    · have hcmax : usizeMax = cur := by injection hz
      right
      omega
  · intro p hp
    rw [lbsPairs_head_congr prev
      { prev with if_jmps := prev.if_jmps ++ [L.length] } stk rfl]
    rcases patchJz_cases hp with h1 | ⟨hz, -⟩
    · rcases getElem?_append_cases h1 with hL | ⟨k, hpk, hk⟩
      · rcases hinvE.fepT p hL with hh | hlen
        · rw [lbsPairs_cons₂] at hh
          rcases List.mem_cons.mp hh with he | hm
          · rw [Prod.mk.injEq] at he
            rcases hw with hwi | hwi <;>
              · rw [hwi] at he
                exact absurd he.1 (by decide)
          · exact Or.inl hm
        · right
          omega
      · exact Instruction.noConfusion (single_getElem? hk).2
    · exact Instruction.noConfusion hz
  · intro p hp
    rcases patchJz_cases hp with h1 | ⟨hz, -⟩
    · rcases getElem?_append_cases h1 with hL | ⟨k, hpk, hk⟩
      · rcases hinvE.jmpT p hL with hh | hlen
        · rcases hh with hfj | hlj
          · rw [fepBreakJmps_cons,
                if_neg (by rcases hw with hwi | hwi <;> rw [hwi] <;> decide),
                List.nil_append] at hfj
            left
            left
            rw [fepBreakJmps_head_congr prev
              { prev with if_jmps := prev.if_jmps ++ [L.length] } stk rfl rfl]
            exact hfj
          · rw [liveIfJmps_cons, if_neg Bool.false_ne_true, List.nil_append,
                liveIfAux_cons] at hlj
            left
            right
            rw [liveIfJmps_cons, if_pos rfl]
            rcases List.mem_append.mp hlj with hhd | htl
            · by_cases hcond : cb.btype = Word.ElsIf ∨ cb.btype = Word.Else
              · rw [if_pos hcond] at hhd
                refine List.mem_append.mpr (Or.inl ?_)
                exact List.mem_append.mpr (Or.inl hhd)
              · rw [if_neg hcond] at hhd
                exact absurd hhd (List.not_mem_nil p)
            · refine List.mem_append.mpr (Or.inr ?_)
              rw [liveIfAux_congr prev
                { prev with if_jmps := prev.if_jmps ++ [L.length] } rfl stk]
              exact htl
        · right
          omega
      · obtain ⟨hk0, hke⟩ := single_getElem? hk
        subst hk0
        left
        right
        rw [liveIfJmps_cons, if_pos rfl]
        refine List.mem_append.mpr (Or.inl ?_)
        refine List.mem_append.mpr (Or.inr ?_)
        rw [hpk]
        simp
    · exact Instruction.noConfusion hz
  · intro q hq hfep
    rw [lbsPairs_head_congr prev
      { prev with if_jmps := prev.if_jmps ++ [L.length] } stk rfl] at hq
    have hq2 : q ∈ lbsPairs (cb :: prev :: stk) := by
      rw [lbsPairs_cons₂]
      exact List.mem_cons_of_mem _ hq
    have hlt := hinvE.fepLbs q hq2 hfep
    omega
  · rw [chainTypesOk_head_congr prev
      { prev with if_jmps := prev.if_jmps ++ [L.length] } stk rfl]
    exact ((chainTypesOk_cons₂ cb prev stk).mp hinvE.types).2

/-- Closing an `if`/`elsif` block with no `elsif`/`else` following: the
controlling `Jz` and every pending `if_jmps` jump of the parent are patched
to the current address and the parent's list is drained. -/
theorem invP_close_ifelsif_false_gen (L : List Instruction) (cb prev : Block)
    (stk : List Block) (c0' : Bool)
    (hw : cb.btype = Word.If ∨ cb.btype = Word.ElsIf)
    (hinvE : InvP L (cb :: prev :: stk) false) :
    InvP (patchJmps (patchJz L prev.last_block_start L.length) prev.if_jmps L.length)
      ({ prev with if_jmps := [] } :: stk) c0' := by
  have hMlen : (patchJmps (patchJz L prev.last_block_start L.length)
      prev.if_jmps L.length).length = L.length := by
    rw [patchJmps_length, patchJz_length]
  refine ⟨?_, ?_, ?_, ?_, ?_, ?_, ?_⟩
  · intro p i a hp ha
    rcases patchJmps_cases hp with h1 | ⟨rfl, -⟩
    · rcases patchJz_cases h1 with h2 | ⟨rfl, -⟩
      · rcases hinvE.targsLe p i a h2 ha with hm | hle
        · exact Or.inl hm
        · right
          omega
      · simp only [jumpTarget, Option.some.injEq] at ha
        right
        omega
    · simp only [jumpTarget, Option.some.injEq] at ha
      right
      omega
  · intro p a hp
    rcases patchJmps_cases hp with h1 | ⟨hj, -⟩
    · rcases patchJz_cases h1 with h2 | ⟨hz, -⟩
      · exact hinvE.noJnz p a h2
      · exact Instruction.noConfusion hz
    · exact Instruction.noConfusion hj
  · intro p hp
    rw [lbsPairs_head_congr prev { prev with if_jmps := [] } stk rfl]
    rcases patchJmps_cases hp with h1 | ⟨hj, -⟩
    · rcases patchJz_cases h1 with h2 | ⟨hz, -⟩
      · by_cases hpq : p = prev.last_block_start
        · subst hpq
          have hpt := patchJz_at_jz L.length h2
          have hM2 := patchJmps_not_jmp L.length prev.if_jmps _ _ _ hpt
            (fun b hb => Instruction.noConfusion hb)
          have hcm : Instruction.Jz L.length = Instruction.Jz usizeMax :=
            Option.some.inj (hM2.symm.trans hp)
          have hcmax : L.length = usizeMax := by injection hcm
          right
          omega
        · rcases hinvE.jzT p h2 with hh | hlen
          · left
            rw [lbsPairs_cons₂] at hh
            rcases hh with h | h
            · rcases List.mem_cons.mp h with he | hm
              · rw [Prod.mk.injEq] at he
                exact absurd he.2 hpq
              · exact Or.inl hm
            · rcases List.mem_cons.mp h with he | hm
              · rw [Prod.mk.injEq] at he
                exact absurd he.2 hpq
              · exact Or.inr hm
          · right
            omega
      · have hcmax : usizeMax = L.length := by injection hz
        right
        omega
    · exact Instruction.noConfusion hj
  · intro p hp
    rw [lbsPairs_head_congr prev { prev with if_jmps := [] } stk rfl]
    rcases patchJmps_cases hp with h1 | ⟨hj, -⟩
    · rcases patchJz_cases h1 with h2 | ⟨hz, -⟩
      · rcases hinvE.fepT p h2 with hh | hlen
        · rw [lbsPairs_cons₂] at hh
          rcases List.mem_cons.mp hh with he | hm
          · rw [Prod.mk.injEq] at he
            rcases hw with hwi | hwi <;>
              · rw [hwi] at he
                exact absurd he.1 (by decide)
          · exact Or.inl hm
        · right
          omega
      · exact Instruction.noConfusion hz
    · exact Instruction.noConfusion hj
  · intro p hp
    rcases patchJmps_cases hp with h1 | ⟨hj, -⟩
    · rcases patchJz_cases h1 with h2 | ⟨hz, -⟩
      · rcases hinvE.jmpT p h2 with hh | hlen
        · rcases hh with hfj | hlj
          · rw [fepBreakJmps_cons,
                if_neg (by rcases hw with hwi | hwi <;> rw [hwi] <;> decide),
                List.nil_append] at hfj
            left
            left
            rw [fepBreakJmps_head_congr prev { prev with if_jmps := [] } stk rfl rfl]
            exact hfj
          · rw [liveIfJmps_cons, if_neg Bool.false_ne_true, List.nil_append,
                liveIfAux_cons] at hlj
            rcases List.mem_append.mp hlj with hhd | htl
            · by_cases hcond : cb.btype = Word.ElsIf ∨ cb.btype = Word.Else
              · rw [if_pos hcond] at hhd
                have hp2 := patchJz_at_jmp prev.last_block_start L.length h2
                have hp3 := (patchJmps_at_jmp L.length prev.if_jmps _ p usizeMax hp2).1 hhd
                have hcm : Instruction.Jmp L.length = Instruction.Jmp usizeMax :=
                  Option.some.inj (hp3.symm.trans hp)
                have hcmax : L.length = usizeMax := by injection hcm
                right
                omega
              · rw [if_neg hcond] at hhd
                exact absurd hhd (List.not_mem_nil p)
            · left
              right
              rw [liveIfJmps_cons]
              refine List.mem_append.mpr (Or.inr ?_)
              rw [liveIfAux_congr prev { prev with if_jmps := [] } rfl stk]
              exact htl
        · right
          omega
      · exact Instruction.noConfusion hz
    · have hcmax : usizeMax = L.length := by injection hj
      right
      omega
  · intro q hq hfep
    rw [lbsPairs_head_congr prev { prev with if_jmps := [] } stk rfl] at hq
    have hq2 : q ∈ lbsPairs (cb :: prev :: stk) := by
      rw [lbsPairs_cons₂]
      exact List.mem_cons_of_mem _ hq
    have hlt := hinvE.fepLbs q hq2 hfep
    omega
  · rw [chainTypesOk_head_congr prev { prev with if_jmps := [] } stk rfl]
    exact ((chainTypesOk_cons₂ cb prev stk).mp hinvE.types).2

/-- Closing an `else` block: every pending `if_jmps` jump of the parent is
patched to the current address and the parent's list is drained. -/
theorem invP_close_else_gen (L : List Instruction) (cb prev : Block)
    (stk : List Block) (c0' : Bool)
    (hbt : cb.btype = Word.Else)
    (hinvE : InvP L (cb :: prev :: stk) false) :
    InvP (patchJmps L prev.if_jmps L.length)
      ({ prev with if_jmps := [] } :: stk) c0' := by
  have hMlen : (patchJmps L prev.if_jmps L.length).length = L.length :=
    patchJmps_length _ _ _
  refine ⟨?_, ?_, ?_, ?_, ?_, ?_, ?_⟩
  · intro p i a hp ha
    rcases patchJmps_cases hp with h1 | ⟨rfl, -⟩
    · rcases hinvE.targsLe p i a h1 ha with hm | hle
      · exact Or.inl hm
      · right
        omega
    · simp only [jumpTarget, Option.some.injEq] at ha
      right
      omega
  · intro p a hp
    rcases patchJmps_cases hp with h1 | ⟨hj, -⟩
    · exact hinvE.noJnz p a h1
    · exact Instruction.noConfusion hj
  · intro p hp
    rw [lbsPairs_head_congr prev { prev with if_jmps := [] } stk rfl]
    rcases patchJmps_cases hp with h1 | ⟨hj, -⟩
    · rcases hinvE.jzT p h1 with hh | hlen
      · left
        rw [lbsPairs_cons₂] at hh
        rcases hh with h | h
        · rcases List.mem_cons.mp h with he | hm
          · rw [Prod.mk.injEq, hbt] at he
            exact absurd he.1 (by decide)
          · exact Or.inl hm
        · rcases List.mem_cons.mp h with he | hm
          · rw [Prod.mk.injEq, hbt] at he
            exact absurd he.1 (by decide)
          · exact Or.inr hm
      · right
        omega
    · exact Instruction.noConfusion hj
  · intro p hp
    rw [lbsPairs_head_congr prev { prev with if_jmps := [] } stk rfl]
    rcases patchJmps_cases hp with h1 | ⟨hj, -⟩
    · rcases hinvE.fepT p h1 with hh | hlen
      · rw [lbsPairs_cons₂] at hh
        rcases List.mem_cons.mp hh with he | hm
        · rw [Prod.mk.injEq, hbt] at he
          exact absurd he.1 (by decide)
        · exact Or.inl hm
      · right
        omega
    · exact Instruction.noConfusion hj
  · intro p hp
    rcases patchJmps_cases hp with h1 | ⟨hj, -⟩
    · rcases hinvE.jmpT p h1 with hh | hlen
      · rcases hh with hfj | hlj
        · rw [fepBreakJmps_cons, if_neg (by rw [hbt]; decide),
              List.nil_append] at hfj
          left
          left
          rw [fepBreakJmps_head_congr prev { prev with if_jmps := [] } stk rfl rfl]
          exact hfj
        · rw [liveIfJmps_cons, if_neg Bool.false_ne_true, List.nil_append,
              liveIfAux_cons] at hlj
          rcases List.mem_append.mp hlj with hhd | htl
          · rw [if_pos (Or.inr hbt)] at hhd
            have hp3 := (patchJmps_at_jmp L.length prev.if_jmps _ p usizeMax h1).1 hhd
            have hcm : Instruction.Jmp L.length = Instruction.Jmp usizeMax :=
              Option.some.inj (hp3.symm.trans hp)
            have hcmax : L.length = usizeMax := by injection hcm
            right
            omega
          · left
            right
            rw [liveIfJmps_cons]
            refine List.mem_append.mpr (Or.inr ?_)
            rw [liveIfAux_congr prev { prev with if_jmps := [] } rfl stk]
            exact htl
      · right
        omega
    · have hcmax : usizeMax = L.length := by injection hj
      right
      omega
  · intro q hq hfep
    rw [lbsPairs_head_congr prev { prev with if_jmps := [] } stk rfl] at hq
    have hq2 : q ∈ lbsPairs (cb :: prev :: stk) := by
      rw [lbsPairs_cons₂]
      exact List.mem_cons_of_mem _ hq
    have hlt := hinvE.fepLbs q hq2 hfep
    omega
  · rw [chainTypesOk_head_congr prev { prev with if_jmps := [] } stk rfl]
    exact ((chainTypesOk_cons₂ cb prev stk).mp hinvE.types).2

/-! Equation lemmas for `closeBlock`, one per closing-block type. -/

theorem closeBlock_eq_fep (s : CompilerState) (prev : Block) (stk : List Block)
    (nib : Bool) (hbt : s.block.btype = Word.ForEveryPart) :
    closeBlock s prev stk nib =
      { blockEnd s with
        instructions :=
          patchJmps
            (patchFep
              ((blockEnd s).instructions ++ [Instruction.Jmp prev.last_block_start])
              prev.last_block_start
              ((blockEnd s).instructions ++ [Instruction.Jmp prev.last_block_start]).length)
            s.block.break_jmps
            ((blockEnd s).instructions ++ [Instruction.Jmp prev.last_block_start]).length
        block := prev, block_stack := stk, last_block_type := Word.Not } := by
  unfold closeBlock
  rw [blockEnd_block, hbt]

theorem closeBlock_eq_ifelsif_true (s : CompilerState) (prev : Block)
    (stk : List Block)
    (hbt : s.block.btype = Word.If ∨ s.block.btype = Word.ElsIf) :
    closeBlock s prev stk true =
      { blockEnd s with
        instructions :=
          patchJz ((blockEnd s).instructions ++ [Instruction.Jmp usizeMax])
            prev.last_block_start
            ((blockEnd s).instructions ++ [Instruction.Jmp usizeMax]).length
        block := { prev with if_jmps := prev.if_jmps ++ [(blockEnd s).instructions.length] }
        block_stack := stk
        last_block_type := s.block.btype } := by
  rcases hbt with hbt | hbt <;>
    · unfold closeBlock
      rw [blockEnd_block, hbt]
      try rfl

theorem closeBlock_eq_ifelsif_false (s : CompilerState) (prev : Block)
    (stk : List Block)
    (hbt : s.block.btype = Word.If ∨ s.block.btype = Word.ElsIf) :
    closeBlock s prev stk false =
      { blockEnd s with
        instructions :=
          patchJmps
            (patchJz (blockEnd s).instructions prev.last_block_start
              (blockEnd s).instructions.length)
            prev.if_jmps (blockEnd s).instructions.length
        block := { prev with if_jmps := [] }
        block_stack := stk
        last_block_type := Word.Not } := by
  rcases hbt with hbt | hbt <;>
    · unfold closeBlock
      rw [blockEnd_block, hbt]
      try rfl

theorem closeBlock_eq_else (s : CompilerState) (prev : Block) (stk : List Block)
    (nib : Bool) (hbt : s.block.btype = Word.Else) :
    closeBlock s prev stk nib =
      { blockEnd s with
        instructions :=
          patchJmps (blockEnd s).instructions prev.if_jmps
            (blockEnd s).instructions.length
        block := { prev with if_jmps := [] }
        block_stack := stk
        last_block_type := Word.Else } := by
  unfold closeBlock
  rw [blockEnd_block, hbt]

/-- Closing a block on `}` preserves the invariant, with the pending-jump
liveness flag recomputed from the following tokens. -/
theorem invP_close (s : CompilerState) (prev : Block) (stk : List Block)
    (ts : List TokInfo)
    (hstk : s.block_stack = prev :: stk)
    (hinv : InvP s.instructions (chain s) false) :
    InvP (closeBlock s prev stk (nextIsElsIfElse ts)).instructions
      (chain (closeBlock s prev stk (nextIsElsIfElse ts)))
      (cond0 (closeBlock s prev stk (nextIsElsIfElse ts)) ts) := by
  have hinvE : InvP (blockEnd s).instructions (s.block :: prev :: stk) false := by
    have h0 := invP_blockEnd s false hinv
    rwa [show chain s = s.block :: s.block_stack from rfl, hstk] at h0
  have htys : s.block.btype = Word.If ∨ s.block.btype = Word.ElsIf ∨
      s.block.btype = Word.Else ∨ s.block.btype = Word.ForEveryPart :=
    ((chainTypesOk_cons₂ s.block prev stk).mp hinvE.types).1
  rcases htys with hbt | hbt | hbt | hbt
  · cases hnib : nextIsElsIfElse ts with
    | false =>
      rw [closeBlock_eq_ifelsif_false s prev stk (Or.inl hbt)]
      exact invP_close_ifelsif_false_gen (blockEnd s).instructions s.block prev stk _
        (Or.inl hbt) hinvE
    | true =>
      have hc : cond0 (closeBlock s prev stk true) ts = true := by
        rw [closeBlock_eq_ifelsif_true s prev stk (Or.inl hbt)]
        simp [cond0, hnib, hbt]
      rw [hc, closeBlock_eq_ifelsif_true s prev stk (Or.inl hbt)]
      exact invP_close_ifelsif_true_gen (blockEnd s).instructions s.block prev stk _
        rfl (Or.inl hbt) hinvE
  · cases hnib : nextIsElsIfElse ts with
    | false =>
      rw [closeBlock_eq_ifelsif_false s prev stk (Or.inr hbt)]
      exact invP_close_ifelsif_false_gen (blockEnd s).instructions s.block prev stk _
        (Or.inr hbt) hinvE
    | true =>
      have hc : cond0 (closeBlock s prev stk true) ts = true := by
        rw [closeBlock_eq_ifelsif_true s prev stk (Or.inr hbt)]
        simp [cond0, hnib, hbt]
      rw [hc, closeBlock_eq_ifelsif_true s prev stk (Or.inr hbt)]
      exact invP_close_ifelsif_true_gen (blockEnd s).instructions s.block prev stk _
        rfl (Or.inr hbt) hinvE
  · rw [closeBlock_eq_else s prev stk (nextIsElsIfElse ts) hbt]
    exact invP_close_else_gen (blockEnd s).instructions s.block prev stk _ hbt hinvE
  · rw [closeBlock_eq_fep s prev stk (nextIsElsIfElse ts) hbt]
    exact invP_close_fep_gen (blockEnd s).instructions s.block prev stk _ _ rfl hbt hinvE

/-- Bound established for every jump target of a compiled program: at most
the instruction count, unless the program has grown past the sentinel. -/
def TargetsBounded (sv : Sieve) : Prop :=
  ∀ (p : Nat) (i : Instruction) (a : Nat), sv.instructions[p]? = some i →
    jumpTarget i = some a →
    a ≤ sv.instructions.length ∨ usizeMax ≤ sv.instructions.length

theorem nextIsElsIfElse_identifier_ne (w : Word) (ln lp : Nat)
    (rest : List TokInfo) (h1 : w ≠ Word.ElsIf) (h2 : w ≠ Word.Else) :
    nextIsElsIfElse (⟨.Identifier w, ln, lp⟩ :: rest) = false := by
  cases w <;> first
    | rfl
    | exact absurd rfl h1
    | exact absurd rfl h2

/-- Appending jump-free instructions while only bookkeeping fields of the
current block change preserves the invariant at any liveness flag. -/
theorem invP_step_append (s : CompilerState) (new : List Instruction) (b' : Block)
    (c0' : Bool)
    (hinv : InvP s.instructions (chain s) false)
    (hnew : ∀ (k : Nat) (i : Instruction), new[k]? = some i → jumpTarget i = none)
    (ht : b'.btype = s.block.btype) (hi : b'.if_jmps = s.block.if_jmps)
    (hb : b'.break_jmps = s.block.break_jmps) :
    InvP (s.instructions ++ new) (b' :: s.block_stack) c0' :=
  invP_mono c0'
    (invP_head_congr s.block b' s.block_stack ht hi hb (invP_append new hinv hnew))

/-- The invariant holds at the initial compiler state. -/
theorem invP_init (c : Compiler) (c0 : Bool) :
    InvP (initState c).instructions (chain (initState c)) c0 where
  targsLe := by
    intro p i a hp ha
    simp [initState] at hp
  noJnz := by
    intro p a hp
    simp [initState] at hp
  jzT := by
    intro p hp
    simp [initState] at hp
  fepT := by
    intro p hp
    simp [initState] at hp
  jmpT := by
    intro p hp
    simp [initState] at hp
  fepLbs := by
    intro q hq hf
    simp [chain, initState, lbsPairs] at hq
  types := rfl

/-- At end of input the invariant forces every jump target within bounds:
the root block tracks nothing, so a sentinel can only survive past the
address space. -/
theorem invP_eof (s : CompilerState) (sv : Sieve)
    (hinv : InvP s.instructions (chain s) false)
    (hok : compileLoop s [] = .ok sv) : TargetsBounded sv := by
  unfold compileLoop at hok
  split at hok
  · rename_i hemp
    cases hok
    have hbs : s.block_stack = [] := by
      cases hsb : s.block_stack with
      | nil => rfl
      | cons b r =>
        rw [hsb] at hemp
        simp [List.isEmpty] at hemp
    have hchain : chain s = [s.block] := by
      rw [show chain s = s.block :: s.block_stack from rfl, hbs]
    rw [hchain] at hinv
    have hroot : s.block.btype = Word.Not := hinv.types
    intro p i a hp ha
    rcases hinv.targsLe p i a hp ha with hm | hle
    · subst hm
      cases i with
      | Jmp b =>
        simp only [jumpTarget, Option.some.injEq] at ha
        subst ha
        rcases hinv.jmpT p hp with hmm | hlen
        · exfalso
          rcases hmm with hf | hl
          · rw [fepBreakJmps_cons, if_neg (by rw [hroot]; decide)] at hf
            simp [fepBreakJmps] at hf
          · rw [liveIfJmps_cons, if_neg Bool.false_ne_true] at hl
            simp [liveIfAux] at hl
        · exact Or.inr hlen
      | Jz b =>
        simp only [jumpTarget, Option.some.injEq] at ha
        subst ha
        rcases hinv.jzT p hp with hmm | hlen
        · exfalso
          rcases hmm with h | h <;> simp [lbsPairs] at h
        · exact Or.inr hlen
      | Jnz b => exact absurd hp (hinv.noJnz p b)
      | ForEveryPart b =>
        simp only [jumpTarget, Option.some.injEq] at ha
        subst ha
        rcases hinv.fepT p hp with hmm | hlen
        · exfalso
          simp [lbsPairs] at hmm
        · exact Or.inr hlen
      | Require c => exact Option.noConfusion ha
      | Discard => exact Option.noConfusion ha
      | Stop => exact Option.noConfusion ha
      | Invalid nm l q => exact Option.noConfusion ha
      | Test t => exact Option.noConfusion ha
      | ForEveryPartPush => exact Option.noConfusion ha
      | ForEveryPartPop q => exact Option.noConfusion ha
      | Clear a b c => exact Option.noConfusion ha
      | Return => exact Option.noConfusion ha
    · exact Or.inl hle
  · exact Except.noConfusion hok

theorem cond0_else_true (s : CompilerState) (ln lp : Nat) (co : TokInfo)
    (rest : List TokInfo)
    (h : s.last_block_type = Word.If ∨ s.last_block_type = Word.ElsIf) :
    cond0 s (⟨.Identifier .Else, ln, lp⟩ :: co :: rest) = true := by
  rcases h with h | h <;> simp [cond0, nextIsElsIfElse, h]

/-- The statement loop preserves the invariant and therefore bounds every
jump target of a successfully compiled program. -/
theorem invP_compileLoop :
    ∀ (n : Nat) (s : CompilerState) (ts : List TokInfo) (sv : Sieve),
      ts.length ≤ n →
      InvP s.instructions (chain s) (cond0 s ts) →
      compileLoop s ts = .ok sv → TargetsBounded sv := by
  intro n
  induction n with
  | zero =>
    intro s ts sv hle hinv hok
    have hts : ts = [] := List.length_eq_zero.mp (Nat.le_zero.mp hle)
    subst hts
    exact invP_eof s sv hinv hok
  | succ n ih =>
    intro s ts sv hle hinv hok
    rw [compileLoop.eq_def] at hok
    split at hok
    · exact invP_eof s sv hinv hok
    · split at hok
      · refine ih _ _ sv (by simp at hle; omega) ?_ hok
        exact invP_step_append s _ _ _ hinv
          (fun k i hk => by obtain ⟨-, rfl⟩ := single_getElem? hk; rfl) rfl rfl rfl
      · exact Except.noConfusion hok
    · exact Except.noConfusion hok
    · exact Except.noConfusion hok
    · exact Except.noConfusion hok
    · dsimp only [] at hok
      split at hok
      · rename_i s2 hop
        have hs2 := openBlock_ok hop
        subst hs2
        refine ih _ _ sv (by simp at hle; omega) ?_ hok
        exact invP_push_ifelsif s.instructions _ Word.If _ _ s.block _ _ s.block_stack
          hinv (Or.inl rfl) rfl rfl rfl (by simp) (Or.inr rfl)
          (fun h => Bool.noConfusion h)
      · exact Except.noConfusion hok
    · exact Except.noConfusion hok
    · exact Except.noConfusion hok
    · exact Except.noConfusion hok
    · split at hok
      · dsimp only [] at hok
        split at hok
        · rename_i s2 hop
          have hs2 := openBlock_ok hop
          subst hs2
          refine ih _ _ sv (by simp at hle; omega) ?_ hok
          exact invP_push_ifelsif s.instructions _ Word.ElsIf _ _ s.block _ _
            s.block_stack hinv (Or.inr rfl) rfl rfl rfl (by simp) (Or.inl rfl)
            (fun _ => rfl)
        · exact Except.noConfusion hok
      · exact Except.noConfusion hok
    · split at hok <;> exact Except.noConfusion hok
    · split at hok <;> exact Except.noConfusion hok
    · split at hok <;> exact Except.noConfusion hok
    · split at hok
      · rename_i hlbt
        split at hok
        · rename_i s2 hop
          have hs2 := openBlock_ok hop
          subst hs2
          rw [cond0_else_true s _ _ _ _ hlbt] at hinv
          refine ih _ _ sv (by simp at hle; omega) ?_ hok
          exact invP_push_else s.instructions _ s.block _ _ s.block_stack hinv
            rfl rfl rfl rfl
        · exact Except.noConfusion hok
      · exact Except.noConfusion hok
    · split at hok <;> exact Except.noConfusion hok
    · split at hok
      · refine ih _ _ sv (by simp at hle; omega) ?_ hok
        exact invP_step_append s _ _ _ hinv
          (fun k i hk => by obtain ⟨-, rfl⟩ := single_getElem? hk; rfl) rfl rfl rfl
      · exact Except.noConfusion hok
    · exact Except.noConfusion hok
    · split at hok
      · refine ih _ _ sv (by simp at hle; omega) ?_ hok
        exact invP_step_append s _ _ _ hinv
          (fun k i hk => by obtain ⟨-, rfl⟩ := single_getElem? hk; rfl) rfl rfl rfl
      · exact Except.noConfusion hok
    · exact Except.noConfusion hok
    · split at hok
      · exact Except.noConfusion hok
      · split at hok
        · exact Except.noConfusion hok
        · split at hok
          · exact Except.noConfusion hok
          · dsimp only [] at hok
            split at hok
            · rename_i s2 hop
              have hs2 := openBlock_ok hop
              subst hs2
              refine ih _ _ sv (by simp at hle; omega) ?_ hok
              exact invP_push_fep s.instructions _ s.block _ _ s.block_stack hinv
                rfl rfl rfl rfl (by simp)
            · exact Except.noConfusion hok
    · split at hok
      · exact Except.noConfusion hok
      · split at hok
        · exact Except.noConfusion hok
        · split at hok
          · exact Except.noConfusion hok
          · exact Except.noConfusion hok
    · split at hok
      · exact Except.noConfusion hok
      · split at hok
        · exact Except.noConfusion hok
        · dsimp only [] at hok
          split at hok
          · rename_i s2 hop
            have hs2 := openBlock_ok hop
            subst hs2
            refine ih _ _ sv (by simp at hle; omega) ?_ hok
            exact invP_push_fep s.instructions _ s.block _ _ s.block_stack hinv
              rfl rfl rfl rfl (by simp)
          · exact Except.noConfusion hok
    · split at hok
      · exact Except.noConfusion hok
      · split at hok
        · exact Except.noConfusion hok
        · exact Except.noConfusion hok
    · split at hok
      · exact Except.noConfusion hok
      · split at hok
        · rename_i s2 hbrk
          split at hok
          · refine ih _ _ sv (by simp at hle; omega) ?_ hok
            exact invP_breakLabelled s s2 _ _ _ _ hinv hbrk
          · exact Except.noConfusion hok
        · exact Except.noConfusion hok
    · split at hok
      · exact Except.noConfusion hok
      · split at hok
        · exact Except.noConfusion hok
        · exact Except.noConfusion hok
    · split at hok
      · exact Except.noConfusion hok
      · split at hok
        · rename_i s2 hbrk
          split at hok
          · refine ih _ _ sv (by simp at hle; omega) ?_ hok
            exact invP_breakPlain s s2 _ _ _ hinv hbrk
          · exact Except.noConfusion hok
        · exact Except.noConfusion hok
    · split at hok
      · exact Except.noConfusion hok
      · split at hok
        · exact Except.noConfusion hok
        · exact Except.noConfusion hok
    · split at hok
      · exact Except.noConfusion hok
      · split at hok
        · refine ih _ _ sv (by simp at hle; omega) ?_ hok
          have hM : ∀ c0' : Bool,
              InvP (s.instructions ++
                  ((if 0 < fepPops (s.block :: s.block_stack) then
                      [Instruction.ForEveryPartPop (fepPops (s.block :: s.block_stack))]
                    else []) ++ [Instruction.Return]))
                (s.block :: s.block_stack) c0' := fun c0' =>
            invP_step_append s _ s.block c0' hinv
              (fun k i hk => by
                by_cases h0 : 0 < fepPops (s.block :: s.block_stack)
                · rw [if_pos h0] at hk
                  rcases pair_getElem? hk with ⟨-, rfl⟩ | ⟨-, rfl⟩ <;> rfl
                · rw [if_neg h0] at hk
                  obtain ⟨-, rfl⟩ := single_getElem? hk
                  rfl) rfl rfl rfl
          have he : (stepReturn s).instructions =
              s.instructions ++
                ((if 0 < fepPops (s.block :: s.block_stack) then
                    [Instruction.ForEveryPartPop (fepPops (s.block :: s.block_stack))]
                  else []) ++ [Instruction.Return]) := by
            show (s.instructions ++ _) ++ [Instruction.Return] = _
            rw [List.append_assoc]
          rw [he]
          exact hM _
        · exact Except.noConfusion hok
    · split at hok
      · exact Except.noConfusion hok
      · exact Except.noConfusion hok
    · rename_i w ln lp rest m1 m2 m3 m4 m5 m6 m7 m8 m9 m10 m11 m12 m13 m14 m15 m16
        m17 m18 m19 m20 m21 m22 m23 m24 m25 m26 m27 m28
      have hne1 : w ≠ Word.ElsIf := fun he => by
        cases hrw : rest with
        | nil => exact m12 he hrw
        | cons a tl => exact m11 a tl he hrw
      have hne2 : w ≠ Word.Else := fun he => by
        cases hrw : rest with
        | nil => exact m14 he hrw
        | cons a tl => exact m13 a tl he hrw
      have hc0 : cond0 s (⟨.Identifier w, ln, lp⟩ :: rest) = false := by
        unfold cond0
        rw [nextIsElsIfElse_identifier_ne w ln lp rest hne1 hne2]
        rfl
      rw [hc0] at hinv
      refine ih _ _ sv (by simp at hle; omega) ?_ hok
      exact invP_step_append s _ _ _ hinv
        (fun k i hk => by obtain ⟨-, rfl⟩ := single_getElem? hk; rfl) rfl rfl rfl
    · refine ih _ _ sv (by simp at hle; omega) ?_ hok
      exact invP_step_append s _ _ _ hinv
        (fun k i hk => by obtain ⟨-, rfl⟩ := single_getElem? hk; rfl) rfl rfl rfl
    · split at hok
      · rename_i prev stk hstk
        refine ih _ _ sv (by simp at hle; omega) ?_ hok
        exact invP_close s prev stk _ hstk hinv
      · exact Except.noConfusion hok
    · exact Except.noConfusion hok

/-- C1 (amended): for every script accepted by `compile`, every `Jmp`, `Jz`
and `Jnz` target and every `ForEveryPart.jz_pos` in the returned `Sieve` is
at most the length of the instruction vector (targets equal to the length
arise for jumps past the final instruction, so the claimed strict bound does
not hold), and differs from the sentinel `usize::MAX` provided the program
is small enough that the sentinel is not itself a reachable address. -/
theorem c1_jump_closure_amended (c : Compiler) (ts : List TokInfo) (sv : Sieve)
    (hok : compile c ts = .ok sv)
    (hlen : sv.instructions.length < usizeMax) :
    JumpClosureLe sv := by
  have htb : TargetsBounded sv :=
    invP_compileLoop ts.length (initState c) ts sv le_rfl (invP_init c _) hok
  intro p i a hp ha
  rcases htb p i a hp ha with hle | hmax
  · exact ⟨by omega, hle⟩
  · exact absurd hmax (by omega)

theorem c1_jump_closure_amended_witness :
    compile Compiler.new c1Toks = Except.ok c1Sieve ∧ JumpClosureLe c1Sieve :=
  ⟨rfl, c1_jump_closure_amended Compiler.new c1Toks c1Sieve rfl (by decide)⟩

end Stalwart
